import Mathlib

/-!
# Verification of the OpenPSG DSP / resampling core

Shallow embedding, in Lean 4 over exact arithmetic (`ℚ` for discrete
value-comparison algorithms, `ℝ` where the source computes with
transcendental functions), of the algorithms of the OpenPSG repository:

* `src/lib/alg/quickselect.ts` — in-place randomized quickselect and
  `percentile`;
* `src/lib/kll/kll.ts` — the KLL streaming quantile sketch;
* `src/lib/filters/fir-coeffs.ts` — windowed-sinc FIR designers;
* `src/lib/resampling/lttb.ts`, `linear.ts`, `webaudio.js` — the three
  resampling algorithms;
* `src/lib/derivations/hrv.ts` — the RMSSD heart-rate-variability pipeline;
* the IIR biquad coefficient designers (`preCalc` and its users).

JavaScript numbers are modelled by exact rationals/reals; JS array indexing
`arr[i]` is modelled by `List.getD i 0` (positions are always in range in
the runs considered); code that can `throw` is modelled in `Except String`;
`Math.random()` outcomes are modelled by explicit oracle arguments so that
every random outcome corresponds to some oracle.  Loops whose iteration
count is bounded by an expression of the inputs are modelled by structural
recursion on that bound (a "fuel" argument that is always supplied at or
above the bound, so the exhaustion branch is unreachable in every run the
theorems speak about).
-/

namespace OpenPSG

/-! ## Quickselect / percentile (`src/lib/alg/quickselect.ts`) -/

namespace Quickselect

/-- Embeds `swap(arr, i, j)`: read both cells, then write them exchanged. -/
def swap (arr : List ℚ) (i j : ℕ) : List ℚ :=
  (arr.set i (arr.getD j 0)).set j (arr.getD i 0)

/-- Embeds the `for (let i = left; i < right; i++)` loop of `partition`
(Lomuto scheme).  `fuel` bounds the remaining iterations; every call below
supplies `right - i`, which is exact. -/
def partitionLoop : ℕ → List ℚ → ℚ → ℕ → ℕ → ℕ → List ℚ × ℕ
  | 0, arr, _, _, _, store => (arr, store)
  | fuel + 1, arr, pivotValue, i, right, store =>
    if i < right then
      if arr.getD i 0 < pivotValue then
        partitionLoop fuel (swap arr i store) pivotValue (i + 1) right (store + 1)
      else
        partitionLoop fuel arr pivotValue (i + 1) right store
    else (arr, store)

/-- Embeds `partition(arr, left, right, pivotIndex)`. -/
def partition (arr : List ℚ) (left right pivotIndex : ℕ) : List ℚ × ℕ :=
  let pivotValue := arr.getD pivotIndex 0
  let arr1 := swap arr pivotIndex right
  let res := partitionLoop (right - left) arr1 pivotValue left right left
  (swap res.1 res.2 right, res.2)

/-- Embeds the `while (left <= right)` loop of `quickselect`.  The random
pivot `left + Math.floor(Math.random() * (right - left + 1))` is modelled by
`left + pivots t % (right - left + 1)` for an arbitrary oracle `pivots`:
every in-range pivot offset is realized by some oracle and no other offset
can occur.  `fuel` bounds the iterations (each iteration shrinks
`right - left`, so `arr.length` suffices); exhaustion and the trailing
`throw new Error("Quickselect failed")` both yield an error value. -/
def quickselectLoop (pivots : ℕ → ℕ) : ℕ → List ℚ → ℕ → ℕ → ℕ → ℕ → Except String ℚ
  | 0, _, _, _, _, _ => .error "Quickselect failed"
  | fuel + 1, arr, k, left, right, t =>
    if left ≤ right then
      let pivotIndex := left + pivots t % (right - left + 1)
      let res := partition arr left right pivotIndex
      if k = res.2 then .ok (res.1.getD k 0)
      else if k < res.2 then quickselectLoop pivots fuel res.1 k left (res.2 - 1) (t + 1)
      else quickselectLoop pivots fuel res.1 k (res.2 + 1) right (t + 1)
    else .error "Quickselect failed"

/-- Embeds `quickselect(arr, k)` with its default bounds
(`left = 0`, `right = arr.length - 1`); `k < 0 || k >= arr.length` raises
the `RangeError`. -/
def quickselect (arr : List ℚ) (k : ℕ) (pivots : ℕ → ℕ) : Except String ℚ :=
  if k < arr.length then
    quickselectLoop pivots arr.length arr k 0 (arr.length - 1) 0
  else .error "k out of range"

/-- The two rank rules of `PercentileMethod`. -/
inductive PercentileMethod
  | nearest_rank
  | lower
deriving DecidableEq

/-- Embeds `percentileIndex(n, p, method)`. -/
def percentileIndex (n : ℕ) (p : ℚ) (method : PercentileMethod) : Except String ℤ :=
  if n = 0 then .error "Empty array"
  else
    let pp := min (max p 0) 1
    let k : ℤ :=
      match method with
      | .nearest_rank => ⌈pp * n⌉ - 1
      | .lower => ⌊pp * ((n : ℚ) - 1)⌋
    .ok (min (max k 0) ((n : ℤ) - 1))

/-- Embeds `percentile(arr, p, method)`; `method ?? "nearest_rank"` is the
`Option.getD` of the optional argument. -/
def percentile (arr : List ℚ) (p : ℚ) (method : Option PercentileMethod)
    (pivots : ℕ → ℕ) : Except String ℚ :=
  if arr.length = 0 then .error "Array must not be empty"
  else
    match percentileIndex arr.length p (method.getD .nearest_rank) with
    | .error e => .error e
    | .ok k1 => quickselect arr k1.toNat pivots

/-- The specification's "fully sorted copy of arr". -/
def sortedCopy (arr : List ℚ) : List ℚ := arr.insertionSort (· ≤ ·)

theorem getD_eq_some (arr : List ℚ) (n : ℕ) (h : n < arr.length) :
    arr[n]? = some (arr.getD n 0) := by
  simp [List.getD_eq_getElem?_getD, List.getElem?_eq_getElem h]

theorem length_swap (arr : List ℚ) (i j : ℕ) : (swap arr i j).length = arr.length := by
  simp [swap]

theorem getElem?_swap (arr : List ℚ) (i j n : ℕ) (hi : i < arr.length)
    (hj : j < arr.length) :
    (swap arr i j)[n]? = if n = j then arr[i]? else if n = i then arr[j]? else arr[n]? := by
  unfold swap
  rcases eq_or_ne n j with rfl | hnj
  · rw [List.getElem?_set_self (by simpa using hj), if_pos rfl, getD_eq_some _ _ hi]
  · rw [List.getElem?_set_ne (Ne.symm hnj), if_neg hnj]
    rcases eq_or_ne n i with rfl | hni
    · rw [List.getElem?_set_self hi, if_pos rfl, getD_eq_some _ _ hj]
    · rw [List.getElem?_set_ne (Ne.symm hni), if_neg hni]

theorem getD_swap (arr : List ℚ) (i j n : ℕ) (hi : i < arr.length)
    (hj : j < arr.length) :
    (swap arr i j).getD n 0
      = if n = j then arr.getD i 0 else if n = i then arr.getD j 0 else arr.getD n 0 := by
  have h := getElem?_swap arr i j n hi hj
  rw [List.getD_eq_getElem?_getD, h]
  split
  · rw [List.getD_eq_getElem?_getD]
  · split <;> rw [List.getD_eq_getElem?_getD]

theorem count_set (l : List ℚ) (i : ℕ) (v a : ℚ) (hi : i < l.length) :
    (l.set i v).count a + (if l.getD i 0 = a then 1 else 0)
      = l.count a + (if v = a then 1 else 0) := by
  induction l generalizing i with
  | nil => simp at hi
  | cons x xs ih =>
    cases i with
    | zero =>
      simp only [List.set_cons_zero, List.count_cons, List.getD_cons_zero, beq_iff_eq]
      by_cases hxa : x = a <;> by_cases hva : v = a <;> simp [hxa, hva]
    | succ n =>
      simp only [List.set_cons_succ, List.count_cons, List.getD_cons_succ, beq_iff_eq]
      have := ih n (by simpa using hi)
      omega

theorem getD_set_same (l : List ℚ) (i : ℕ) (v : ℚ) (hi : i < l.length) :
    (l.set i v).getD i 0 = v := by
  rw [List.getD_eq_getElem?_getD, List.getElem?_set_self hi]
  rfl

theorem getD_set_other (l : List ℚ) (i n : ℕ) (v : ℚ) (hne : n ≠ i) :
    (l.set i v).getD n 0 = l.getD n 0 := by
  rw [List.getD_eq_getElem?_getD, List.getElem?_set_ne (Ne.symm hne),
    ← List.getD_eq_getElem?_getD]

theorem swap_perm (arr : List ℚ) (i j : ℕ) (hi : i < arr.length) (hj : j < arr.length) :
    List.Perm (swap arr i j) arr := by
  rw [List.perm_iff_count]
  intro a
  have hlen : (arr.set i (arr.getD j 0)).length = arr.length := by simp
  have h1 := count_set (arr.set i (arr.getD j 0)) j (arr.getD i 0) a (by omega)
  have h2 := count_set arr i (arr.getD j 0) a hi
  have hgd : (arr.set i (arr.getD j 0)).getD j 0 = arr.getD j 0 := by
    rcases eq_or_ne j i with rfl | hne
    · exact getD_set_same arr j _ hj
    · exact getD_set_other arr i j _ hne
  rw [hgd] at h1
  unfold swap
  omega

/-- Post-state of the inner Lomuto loop: a permutation of the input touching
only the window `[store₀, right)`, with everything in `[left0, store')`
strictly below the pivot and everything in `[store', i')` not below it. -/
theorem partitionLoop_spec (fuel : ℕ) :
    ∀ (arr : List ℚ) (pv : ℚ) (i right store left0 : ℕ),
    fuel = right - i →
    right < arr.length →
    left0 ≤ store → store ≤ i → i ≤ right →
    (∀ x, left0 ≤ x → x < store → arr.getD x 0 < pv) →
    (∀ x, store ≤ x → x < i → ¬ arr.getD x 0 < pv) →
    (partitionLoop fuel arr pv i right store).1.length = arr.length ∧
    List.Perm (partitionLoop fuel arr pv i right store).1 arr ∧
    (∀ x, x < store ∨ right ≤ x →
      (partitionLoop fuel arr pv i right store).1.getD x 0 = arr.getD x 0) ∧
    store ≤ (partitionLoop fuel arr pv i right store).2 ∧
    (partitionLoop fuel arr pv i right store).2 ≤ right ∧
    (∀ x, left0 ≤ x → x < (partitionLoop fuel arr pv i right store).2 →
      (partitionLoop fuel arr pv i right store).1.getD x 0 < pv) ∧
    (∀ x, (partitionLoop fuel arr pv i right store).2 ≤ x → x < right →
      ¬ (partitionLoop fuel arr pv i right store).1.getD x 0 < pv) := by
  induction fuel with
  | zero =>
    intro arr pv i right store left0 hfuel hrlen hls hsi hir hlow hhigh
    have hieq : i = right := by omega
    subst hieq
    exact ⟨rfl, List.Perm.refl _, fun x _ => rfl, le_refl _, hsi,
      hlow, fun x hx1 hx2 => hhigh x hx1 hx2⟩
  | succ fuel ih =>
    intro arr pv i right store left0 hfuel hrlen hls hsi hir hlow hhigh
    have hilt : i < right := by omega
    simp only [partitionLoop, if_pos hilt]
    by_cases hcmp : arr.getD i 0 < pv
    · rw [if_pos hcmp]
      have hilen : i < arr.length := by omega
      have hslen : store < arr.length := by omega
      have hA : ∀ x, left0 ≤ x → x < store + 1 → (swap arr i store).getD x 0 < pv := by
        intro x hx1 hx2
        rw [getD_swap arr i store x hilen hslen]
        rcases eq_or_ne x store with rfl | hxs
        · rw [if_pos rfl]; exact hcmp
        · rw [if_neg hxs, if_neg (by omega)]
          exact hlow x hx1 (by omega)
      have hB : ∀ x, store + 1 ≤ x → x < i + 1 → ¬ (swap arr i store).getD x 0 < pv := by
        intro x hx1 hx2
        rw [getD_swap arr i store x hilen hslen]
        rw [if_neg (by omega)]
        rcases eq_or_ne x i with rfl | hxi
        · rw [if_pos rfl]
          exact hhigh store (le_refl _) (by omega)
        · rw [if_neg hxi]
          exact hhigh x (by omega) (by omega)
      obtain ⟨ihlen, ihperm, ihout, ihlo, ihhi, ihA, ihB⟩ :=
        ih (swap arr i store) pv (i + 1) right (store + 1) left0 (by omega)
          (by rw [length_swap]; exact hrlen) (by omega) (by omega) (by omega) hA hB
      refine ⟨by rw [ihlen, length_swap], ihperm.trans (swap_perm arr i store hilen hslen),
        ?_, by omega, ihhi, ihA, ihB⟩
      intro x hx
      rw [ihout x (by omega), getD_swap arr i store x hilen hslen,
        if_neg (by omega), if_neg (by omega)]
    · rw [if_neg hcmp]
      have hB : ∀ x, store ≤ x → x < i + 1 → ¬ arr.getD x 0 < pv := by
        intro x hx1 hx2
        rcases eq_or_ne x i with rfl | hxi
        · exact hcmp
        · exact hhigh x hx1 (by omega)
      obtain ⟨ihlen, ihperm, ihout, ihlo, ihhi, ihA, ihB⟩ :=
        ih arr pv (i + 1) right store left0 (by omega) hrlen hls (by omega) (by omega)
          hlow hB
      exact ⟨ihlen, ihperm, fun x hx => ihout x hx, ihlo, ihhi, ihA, ihB⟩

/-- Post-state of `partition`: the pivot value ends at the returned store
index, with strictly smaller values on its left inside the window and
not-smaller values on its right; the rest of the array is untouched. -/
theorem partition_spec (arr : List ℚ) (left right pivotIndex : ℕ)
    (hlp : left ≤ pivotIndex) (hpr : pivotIndex ≤ right) (hr : right < arr.length) :
    (partition arr left right pivotIndex).1.length = arr.length ∧
    List.Perm (partition arr left right pivotIndex).1 arr ∧
    left ≤ (partition arr left right pivotIndex).2 ∧
    (partition arr left right pivotIndex).2 ≤ right ∧
    (∀ x, x < left ∨ right < x →
      (partition arr left right pivotIndex).1.getD x 0 = arr.getD x 0) ∧
    (partition arr left right pivotIndex).1.getD (partition arr left right pivotIndex).2 0
      = arr.getD pivotIndex 0 ∧
    (∀ x, left ≤ x → x < (partition arr left right pivotIndex).2 →
      (partition arr left right pivotIndex).1.getD x 0 < arr.getD pivotIndex 0) ∧
    (∀ x, (partition arr left right pivotIndex).2 < x → x ≤ right →
      ¬ (partition arr left right pivotIndex).1.getD x 0 < arr.getD pivotIndex 0) := by
  have hp : pivotIndex < arr.length := by omega
  set pv := arr.getD pivotIndex 0 with hpv
  set arr1 := swap arr pivotIndex right with harr1
  have h1len : arr1.length = arr.length := length_swap arr pivotIndex right
  have h1r : arr1.getD right 0 = pv := by
    rw [harr1, getD_swap arr pivotIndex right right hp hr, if_pos rfl]
  obtain ⟨l2len, l2perm, l2out, l2lo, l2hi, l2A, l2B⟩ :=
    partitionLoop_spec (right - left) arr1 pv left right left left rfl (by omega)
      (le_refl _) (le_refl _) (by omega) (fun x hx1 hx2 => absurd hx2 (by omega))
      (fun x hx1 hx2 => absurd hx2 (by omega))
  set res := partitionLoop (right - left) arr1 pv left right left with hres
  have hstlen : res.2 < arr.length := by omega
  have h2len : res.1.length = arr.length := by rw [l2len, h1len]
  have h2r : res.1.getD right 0 = pv := by rw [l2out right (Or.inr (le_refl _)), h1r]
  have hkey : partition arr left right pivotIndex = (swap res.1 res.2 right, res.2) := rfl
  rw [hkey]
  simp only
  constructor
  · rw [length_swap, h2len]
  constructor
  · exact ((swap_perm res.1 res.2 right (by omega) (by omega)).trans l2perm).trans
      (swap_perm arr pivotIndex right hp hr)
  refine ⟨l2lo, l2hi, ?_, ?_, ?_, ?_⟩
  · intro x hx
    rw [getD_swap res.1 res.2 right x (by omega) (by omega),
      if_neg (by omega), if_neg (by omega), l2out x (by omega), harr1,
      getD_swap arr pivotIndex right x hp hr, if_neg (by omega), if_neg (by omega)]
  · rw [getD_swap res.1 res.2 right res.2 (by omega) (by omega)]
    rcases eq_or_ne res.2 right with hsr | hsr
    · rw [if_pos hsr, hsr, h2r]
    · rw [if_neg hsr, if_pos rfl, h2r]
  · intro x hx1 hx2
    rw [getD_swap res.1 res.2 right x (by omega) (by omega),
      if_neg (by omega), if_neg (by omega)]
    exact l2A x hx1 hx2
  · intro x hx1 hx2
    rw [getD_swap res.1 res.2 right x (by omega) (by omega)]
    rcases eq_or_ne x right with rfl | hxr
    · rw [if_pos rfl]
      exact l2B res.2 (le_refl _) (by omega)
    · rw [if_neg hxr, if_neg (by omega)]
      exact l2B x (by omega) (by omega)

/-- Loop invariant of the outer quickselect loop: every value left of the
window is ≤ every value from the window on, and every value right of the
window is ≥ every value up to the window's end. -/
def sandwich (arr : List ℚ) (left right : ℕ) : Prop :=
  (∀ i j, i < left → left ≤ j → j < arr.length → arr.getD i 0 ≤ arr.getD j 0) ∧
  (∀ i j, i ≤ right → right < j → j < arr.length → arr.getD i 0 ≤ arr.getD j 0)

theorem take_eq_of_agree (arr arr' : List ℚ) (m : ℕ) (hlen : arr'.length = arr.length)
    (h : ∀ x, x < m → arr'.getD x 0 = arr.getD x 0) : arr'.take m = arr.take m := by
  apply List.ext_getElem?
  intro n
  rw [List.getElem?_take, List.getElem?_take]
  split
  · rcases lt_or_le n arr.length with hn | hn
    · rw [getD_eq_some _ _ (by omega), getD_eq_some _ _ hn]
      exact congrArg _ (by simpa using h n (by assumption))
    · rw [List.getElem?_eq_none (by omega), List.getElem?_eq_none (by omega)]
  · rfl

theorem drop_eq_of_agree (arr arr' : List ℚ) (m : ℕ) (hlen : arr'.length = arr.length)
    (h : ∀ x, m ≤ x → arr'.getD x 0 = arr.getD x 0) : arr'.drop m = arr.drop m := by
  apply List.ext_getElem?
  intro n
  rw [List.getElem?_drop, List.getElem?_drop]
  rcases lt_or_le (m + n) arr.length with hn | hn
  · rw [getD_eq_some _ _ (by omega), getD_eq_some _ _ hn]
    exact congrArg _ (by simpa using h (m + n) (by omega))
  · rw [List.getElem?_eq_none (by omega), List.getElem?_eq_none (by omega)]

/-- The window of an array between `left` and `right` inclusive. -/
def window (arr : List ℚ) (left right : ℕ) : List ℚ :=
  (arr.drop left).take (right + 1 - left)

theorem window_decomp (arr : List ℚ) (left right : ℕ) (hlr : left ≤ right)
    (hr : right < arr.length) :
    arr = arr.take left ++ (window arr left right ++ arr.drop (right + 1)) := by
  have h1 : arr.drop (right + 1) = (arr.drop left).drop (right + 1 - left) := by
    rw [List.drop_drop, show left + (right + 1 - left) = right + 1 by omega]
  rw [h1, window, List.take_append_drop, List.take_append_drop]

theorem window_perm (arr arr' : List ℚ) (left right : ℕ)
    (hlen : arr'.length = arr.length) (hperm : List.Perm arr' arr)
    (hout : ∀ x, x < left ∨ right < x → arr'.getD x 0 = arr.getD x 0)
    (hlr : left ≤ right) (hr : right < arr.length) :
    List.Perm (window arr' left right) (window arr left right) := by
  have htake : arr'.take left = arr.take left :=
    take_eq_of_agree arr arr' left hlen (fun x hx => hout x (Or.inl hx))
  have hdrop : arr'.drop (right + 1) = arr.drop (right + 1) :=
    drop_eq_of_agree arr arr' (right + 1) hlen (fun x hx => hout x (Or.inr (by omega)))
  have hperm2 := hperm
  rw [window_decomp arr' left right hlr (by omega), window_decomp arr left right hlr hr,
    htake, hdrop] at hperm2
  have := (List.perm_append_left_iff (arr.take left)).mp hperm2
  exact (List.perm_append_right_iff (arr.drop (right + 1))).mp this

theorem getElem_eq_getD (arr : List ℚ) (m : ℕ) (h : m < arr.length) :
    arr[m] = arr.getD m 0 := by
  rw [List.getD_eq_getElem?_getD, List.getElem?_eq_getElem h]
  rfl

theorem getD_mem_window (arr : List ℚ) (left right j : ℕ) (h1 : left ≤ j) (h2 : j ≤ right)
    (hj : j < arr.length) : arr.getD j 0 ∈ window arr left right := by
  have hwlen : j - left < (window arr left right).length := by
    simp only [window, List.length_take, List.length_drop]
    omega
  have hv : (window arr left right)[j - left] = arr.getD j 0 := by
    simp only [window, List.getElem_take, List.getElem_drop]
    rw [getElem_eq_getD arr (left + (j - left)) (by omega)]
    exact congrArg (fun m => arr.getD m 0) (by omega)
  rw [← hv]
  exact List.getElem_mem hwlen

theorem mem_window_getD (arr : List ℚ) (left right : ℕ) (v : ℚ)
    (hv : v ∈ window arr left right) (hlr : left ≤ right) (hr : right < arr.length) :
    ∃ j, left ≤ j ∧ j ≤ right ∧ j < arr.length ∧ arr.getD j 0 = v := by
  obtain ⟨n, hn, hget⟩ := List.mem_iff_getElem.mp hv
  have hn' : n < (right + 1 - left) ⊓ (arr.length - left) := by
    simpa only [window, List.length_take, List.length_drop] using hn
  refine ⟨left + n, by omega, by omega, by omega, ?_⟩
  rw [← hget]
  simp only [window, List.getElem_take, List.getElem_drop]
  rw [getElem_eq_getD arr (left + n) (by omega)]

theorem sandwich_preserved (arr arr' : List ℚ) (left right : ℕ)
    (hlen : arr'.length = arr.length) (hperm : List.Perm arr' arr)
    (hout : ∀ x, x < left ∨ right < x → arr'.getD x 0 = arr.getD x 0)
    (hlr : left ≤ right) (hr : right < arr.length) (hs : sandwich arr left right) :
    sandwich arr' left right := by
  obtain ⟨hsl, hsr⟩ := hs
  have hw := window_perm arr arr' left right hlen hperm hout hlr hr
  constructor
  · intro i j hi hj hjl
    rw [hout i (Or.inl (by omega))]
    rcases le_or_lt j right with hjr | hjr
    · have hmem : arr'.getD j 0 ∈ window arr' left right :=
        getD_mem_window arr' left right j hj hjr (by omega)
      obtain ⟨j', hj1, hj2, hj3, hj4⟩ :=
        mem_window_getD arr left right _ (hw.mem_iff.mp hmem) hlr hr
      rw [← hj4]
      exact hsl i j' hi hj1 hj3
    · rw [hout j (Or.inr hjr)]
      exact hsl i j hi hj (by omega)
  · intro i j hi hj hjl
    rw [hout j (Or.inr hj)]
    rcases lt_or_le i left with hil | hil
    · rw [hout i (Or.inl hil)]
      exact hsr i j hi hj (by omega)
    · have hmem : arr'.getD i 0 ∈ window arr' left right :=
        getD_mem_window arr' left right i hil hi (by omega)
      obtain ⟨i', hi1, hi2, hi3, hi4⟩ :=
        mem_window_getD arr left right _ (hw.mem_iff.mp hmem) hlr hr
      rw [← hi4]
      exact hsr i' j hi2 hj (by omega)

theorem sortedCopy_sorted (arr : List ℚ) : (sortedCopy arr).Sorted (· ≤ ·) :=
  List.sorted_insertionSort _ arr

theorem sortedCopy_perm (arr : List ℚ) : List.Perm (sortedCopy arr) arr :=
  List.perm_insertionSort _ arr

theorem sortedCopy_congr (a b : List ℚ) (h : List.Perm a b) : sortedCopy a = sortedCopy b :=
  List.eq_of_perm_of_sorted ((sortedCopy_perm a).trans (h.trans (sortedCopy_perm b).symm))
    (sortedCopy_sorted a) (sortedCopy_sorted b)

/-- If position `k` already separates smaller-or-equal values (below) from
larger-or-equal values (above), sorting does not move the value at `k`. -/
theorem sortedCopy_getD_fix (arr : List ℚ) (k : ℕ) (hk : k < arr.length)
    (hlo : ∀ i, i < k → arr.getD i 0 ≤ arr.getD k 0)
    (hhi : ∀ j, k < j → j < arr.length → arr.getD k 0 ≤ arr.getD j 0) :
    (sortedCopy arr).getD k 0 = arr.getD k 0 := by
  have hPlen : (arr.take k).length = k := by
    rw [List.length_take]
    omega
  have hdecomp : arr = arr.take k ++ arr.getD k 0 :: arr.drop (k + 1) := by
    rw [← getElem_eq_getD arr k hk, List.getElem_cons_drop, List.take_append_drop]
  have hmemP : ∀ a ∈ arr.take k, a ≤ arr.getD k 0 := by
    intro a ha
    obtain ⟨n, hn, hget⟩ := List.mem_iff_getElem.mp ha
    rw [hPlen] at hn
    rw [← hget]
    simp only [List.getElem_take, getElem_eq_getD]
    exact hlo n hn
  have hmemS : ∀ b ∈ arr.drop (k + 1), arr.getD k 0 ≤ b := by
    intro b hb
    obtain ⟨n, hn, hget⟩ := List.mem_iff_getElem.mp hb
    rw [List.length_drop] at hn
    rw [← hget]
    simp only [List.getElem_drop, getElem_eq_getD]
    exact hhi (k + 1 + n) (by omega) (by omega)
  have hsorted : (sortedCopy (arr.take k)
      ++ arr.getD k 0 :: sortedCopy (arr.drop (k + 1))).Sorted (· ≤ ·) := by
    rw [List.Sorted, List.pairwise_append]
    refine ⟨sortedCopy_sorted _, ?_, ?_⟩
    · rw [List.pairwise_cons]
      exact ⟨fun b hb => hmemS b ((sortedCopy_perm _).mem_iff.mp hb),
        sortedCopy_sorted _⟩
    · intro a ha b hb
      have haP : a ≤ arr.getD k 0 := hmemP a ((sortedCopy_perm _).mem_iff.mp ha)
      rcases List.mem_cons.mp hb with rfl | hb2
      · exact haP
      · exact le_trans haP (hmemS b ((sortedCopy_perm _).mem_iff.mp hb2))
  have hperm : List.Perm (sortedCopy arr)
      (sortedCopy (arr.take k) ++ arr.getD k 0 :: sortedCopy (arr.drop (k + 1))) := by
    refine (sortedCopy_perm arr).trans ?_
    conv_lhs => rw [hdecomp]
    exact (sortedCopy_perm _).symm.append ((sortedCopy_perm _).symm.cons _)
  have heq : sortedCopy arr
      = sortedCopy (arr.take k) ++ arr.getD k 0 :: sortedCopy (arr.drop (k + 1)) :=
    List.eq_of_perm_of_sorted hperm (sortedCopy_sorted arr) hsorted
  have hsplen : (sortedCopy (arr.take k)).length = k :=
    (sortedCopy_perm _).length_eq.trans hPlen
  rw [heq, List.getD_eq_getElem?_getD, List.getElem?_append_right (by omega),
    hsplen, Nat.sub_self]
  simp

/-- Correctness of the quickselect loop.  Whatever pivots the random oracle
produces, as long as the sandwich invariant holds, the loop returns the
`k`-th element of the sorted copy of the current array — and in particular
never reaches the trailing `throw`. -/
theorem quickselectLoop_correct (fuel : ℕ) :
    ∀ (arr : List ℚ) (k left right t : ℕ) (pivots : ℕ → ℕ),
    right < arr.length → left ≤ k → k ≤ right →
    right + 1 - left ≤ fuel →
    sandwich arr left right →
    quickselectLoop pivots fuel arr k left right t
      = .ok ((sortedCopy arr).getD k 0) := by
  induction fuel with
  | zero =>
    intro arr k left right t pivots hr hlk hkr hfuel hs
    omega
  | succ fuel ih =>
    intro arr k left right t pivots hr hlk hkr hfuel hs
    have hlr : left ≤ right := le_trans hlk hkr
    have hmod : pivots t % (right - left + 1) < right - left + 1 :=
      Nat.mod_lt _ (by omega)
    obtain ⟨plen, pperm, plo, phi, pout, ppv, pA, pB⟩ :=
      partition_spec arr left right (left + pivots t % (right - left + 1))
        (by omega) (by omega) hr
    set pr := partition arr left right (left + pivots t % (right - left + 1))
      with hpr
    set pv := arr.getD (left + pivots t % (right - left + 1)) 0 with hpv
    have hsand : sandwich pr.1 left right :=
      sandwich_preserved arr pr.1 left right plen pperm pout hlr hr hs
    have hsorteq : sortedCopy pr.1 = sortedCopy arr := sortedCopy_congr _ _ pperm
    simp only [quickselectLoop, if_pos hlr, ← hpr]
    by_cases hkp : k = pr.2
    · rw [if_pos hkp]
      have hfix : (sortedCopy pr.1).getD k 0 = pr.1.getD k 0 := by
        apply sortedCopy_getD_fix pr.1 k (by omega)
        · intro i hik
          rcases lt_or_le i left with hil | hil
          · exact hsand.1 i k hil hlk (by omega)
          · have h1 : pr.1.getD i 0 < pv := pA i hil (by omega)
            have h2 : pr.1.getD k 0 = pv := by rw [hkp, ppv]
            rw [h2]
            exact le_of_lt h1
        · intro j hkj hjlen
          have h2 : pr.1.getD k 0 = pv := by rw [hkp, ppv]
          rcases le_or_lt j right with hjr | hjr
          · have h1 : ¬ pr.1.getD j 0 < pv := pB j (by omega) hjr
            rw [h2]
            exact le_of_not_lt h1
          · exact hsand.2 k j hkr hjr (by omega)
      rw [← hsorteq, hfix]
    · rw [if_neg hkp]
      by_cases hklt : k < pr.2
      · rw [if_pos hklt]
        have hsand2 : sandwich pr.1 left (pr.2 - 1) := by
          constructor
          · intro i j hi hj hjlen
            exact hsand.1 i j hi hj hjlen
          · intro i j hi hj hjlen
            rcases le_or_lt j right with hjr | hjr
            · rcases lt_or_le i left with hil | hil
              · exact hsand.1 i j hil (by omega) hjlen
              · have h1 : pr.1.getD i 0 < pv := pA i hil (by omega)
                have h2 : pv ≤ pr.1.getD j 0 := by
                  rcases eq_or_lt_of_le (show pr.2 ≤ j by omega) with rfl | hj2
                  · rw [ppv]
                  · exact le_of_not_lt (pB j hj2 hjr)
                exact le_of_lt (lt_of_lt_of_le h1 h2)
            · exact hsand.2 i j (by omega) hjr hjlen
        rw [ih pr.1 k left (pr.2 - 1) (t + 1) pivots (by omega) hlk (by omega)
          (by omega) hsand2, hsorteq]
      · have hkgt : pr.2 < k := by omega
        rw [if_neg hklt]
        have hsand2 : sandwich pr.1 (pr.2 + 1) right := by
          constructor
          · intro i j hi hj hjlen
            rcases lt_or_le i left with hil | hil
            · exact hsand.1 i j hil (by omega) hjlen
            · have h1 : pr.1.getD i 0 ≤ pv := by
                rcases eq_or_lt_of_le (show i ≤ pr.2 by omega) with rfl | hi2
                · rw [ppv]
                · exact le_of_lt (pA i hil hi2)
              rcases le_or_lt j right with hjr | hjr
              · have h2 : pv ≤ pr.1.getD j 0 := le_of_not_lt (pB j (by omega) hjr)
                exact le_trans h1 h2
              · exact hsand.2 i j (by omega) hjr hjlen
          · intro i j hi hj hjlen
            exact hsand.2 i j hi hj hjlen
        rw [ih pr.1 k (pr.2 + 1) right (t + 1) pivots (by omega) (by omega) hkr
          (by omega) hsand2, hsorteq]

/-- Full quickselect correctness: for every in-range `k` and every pivot
oracle, `quickselect` returns the `k`-th smallest element. -/
theorem quickselect_correct (arr : List ℚ) (k : ℕ) (pivots : ℕ → ℕ)
    (hk : k < arr.length) :
    quickselect arr k pivots = .ok ((sortedCopy arr).getD k 0) := by
  rw [quickselect, if_pos hk]
  apply quickselectLoop_correct arr.length arr k 0 (arr.length - 1) 0 pivots
    (by omega) (by omega) (by omega) (by omega)
  constructor
  · intro i j hi hj hjlen
    omega
  · intro i j hi hj hjlen
    omega

/-- Clamping `p` into [0,1] before applying the nearest-rank formula gives
the same clamped index as applying the formula to the raw `p`. -/
theorem rank_clamp_nearest (n : ℕ) (hn : 1 ≤ n) (p : ℚ) :
    min (max (⌈min (max p 0) 1 * (n : ℚ)⌉ - 1) 0) ((n : ℤ) - 1)
      = min (max (⌈p * (n : ℚ)⌉ - 1) 0) ((n : ℤ) - 1) := by
  rcases lt_or_le p 0 with h | h
  · rw [max_eq_right (le_of_lt h), min_eq_left (by norm_num : (0:ℚ) ≤ 1), zero_mul,
      Int.ceil_zero]
    have h1 : ⌈p * (n : ℚ)⌉ ≤ 0 := Int.ceil_le.mpr (by
      push_cast
      exact mul_nonpos_of_nonpos_of_nonneg (le_of_lt h) (by positivity))
    omega
  · rw [max_eq_left h]
    rcases le_or_lt p 1 with h2 | h2
    · rw [min_eq_left h2]
    · rw [min_eq_right (le_of_lt h2), one_mul, Int.ceil_natCast]
      have h3 : (n : ℤ) ≤ ⌈p * (n : ℚ)⌉ := by
        have hq : ((n : ℚ)) ≤ p * n := by
          nlinarith [show (0:ℚ) ≤ (n:ℚ) by positivity]
        calc (n : ℤ) = ⌈((n : ℚ))⌉ := (Int.ceil_natCast n).symm
          _ ≤ ⌈p * (n : ℚ)⌉ := Int.ceil_mono hq
      omega

/-- Clamping `p` into [0,1] before applying the lower-rank formula gives
the same clamped index as applying the formula to the raw `p`. -/
theorem rank_clamp_lower (n : ℕ) (hn : 1 ≤ n) (p : ℚ) :
    min (max ⌊min (max p 0) 1 * ((n : ℚ) - 1)⌋ 0) ((n : ℤ) - 1)
      = min (max ⌊p * ((n : ℚ) - 1)⌋ 0) ((n : ℤ) - 1) := by
  have hn1 : (0 : ℚ) ≤ (n : ℚ) - 1 := by
    have : (1 : ℚ) ≤ (n : ℚ) := by exact_mod_cast hn
    linarith
  have hfl : ⌊((n : ℚ) - 1)⌋ = (n : ℤ) - 1 := by
    rw [show ((n : ℚ) - 1) = (((n : ℤ) - 1 : ℤ) : ℚ) by push_cast; ring, Int.floor_intCast]
  rcases lt_or_le p 0 with h | h
  · rw [max_eq_right (le_of_lt h), min_eq_left (by norm_num : (0:ℚ) ≤ 1), zero_mul,
      Int.floor_zero]
    have h1 : ⌊p * ((n : ℚ) - 1)⌋ ≤ 0 := by
      have : p * ((n : ℚ) - 1) ≤ 0 := mul_nonpos_of_nonpos_of_nonneg (le_of_lt h) hn1
      calc ⌊p * ((n : ℚ) - 1)⌋ ≤ ⌊(0 : ℚ)⌋ := Int.floor_mono this
        _ = 0 := Int.floor_zero
    omega
  · rw [max_eq_left h]
    rcases le_or_lt p 1 with h2 | h2
    · rw [min_eq_left h2]
    · rw [min_eq_right (le_of_lt h2), one_mul, hfl]
      have h3 : (n : ℤ) - 1 ≤ ⌊p * ((n : ℚ) - 1)⌋ := by
        have hq : ((n : ℚ) - 1) ≤ p * ((n : ℚ) - 1) := by nlinarith
        calc (n : ℤ) - 1 = ⌊((n : ℚ) - 1)⌋ := hfl.symm
          _ ≤ ⌊p * ((n : ℚ) - 1)⌋ := Int.floor_mono hq
      omega

/-- C3 (percentile round-trip): for every non-empty array, every `p`, each
method and every sequence of random pivot choices, `percentile` returns
exactly the element of the fully sorted copy of `arr` at the
method-specific rank: `clamp(⌈p·n⌉ - 1, 0, n-1)` for `nearest_rank` (the
default) and `clamp(⌊p·(n-1)⌋, 0, n-1)` for `lower`. -/
theorem percentile_round_trip (arr : List ℚ) (p : ℚ)
    (method : Option PercentileMethod) (pivots : ℕ → ℕ) (h : arr ≠ []) :
    percentile arr p method pivots = .ok ((sortedCopy arr).getD
      (match method.getD .nearest_rank with
        | .nearest_rank =>
            (min (max (⌈p * (arr.length : ℚ)⌉ - 1) 0) ((arr.length : ℤ) - 1)).toNat
        | .lower =>
            (min (max ⌊p * ((arr.length : ℚ) - 1)⌋ 0) ((arr.length : ℤ) - 1)).toNat) 0) := by
  have hn : 1 ≤ arr.length := List.length_pos.mpr h
  rw [percentile, if_neg (by omega), percentileIndex, if_neg (by omega)]
  cases hm : method.getD .nearest_rank with
  | nearest_rank =>
    simp only
    rw [rank_clamp_nearest arr.length hn p]
    apply quickselect_correct
    have h1 : (0 : ℤ) ≤ min (max (⌈p * (arr.length : ℚ)⌉ - 1) 0) ((arr.length : ℤ) - 1) := by
      omega
    omega
  | lower =>
    simp only
    rw [rank_clamp_lower arr.length hn p]
    apply quickselect_correct
    omega

/-- C10 (no failure paths): for every in-range `k` and every pivot oracle,
`quickselect` terminates with a value (the trailing
`throw new Error("Quickselect failed")` is never reached); `percentileIndex`
always produces a rank inside `[0, n-1]`; and hence `percentile` on a
non-empty array never raises the `RangeError`. -/
theorem quickselect_no_failure (arr : List ℚ) (k : ℕ) (pivots : ℕ → ℕ) (p : ℚ)
    (method : PercentileMethod) (hk : k < arr.length) :
    (∃ v, quickselect arr k pivots = .ok v) ∧
    (∃ k1 : ℤ, percentileIndex arr.length p method = .ok k1 ∧
      0 ≤ k1 ∧ k1 ≤ (arr.length : ℤ) - 1) ∧
    (∀ m : Option PercentileMethod, ∃ v, percentile arr p m pivots = .ok v) := by
  have hn : 1 ≤ arr.length := by omega
  refine ⟨⟨_, quickselect_correct arr k pivots hk⟩, ?_, ?_⟩
  · rw [percentileIndex, if_neg (by omega)]
    exact ⟨_, rfl, by omega, by omega⟩
  · intro m
    rw [percentile, if_neg (by omega), percentileIndex, if_neg (by omega)]
    cases m.getD .nearest_rank with
    | nearest_rank =>
      simp only
      exact ⟨_, quickselect_correct arr _ pivots (by omega)⟩
    | lower =>
      simp only
      exact ⟨_, quickselect_correct arr _ pivots (by omega)⟩

/-- Witness for C3 at a concrete input. -/
theorem percentile_round_trip_witness :
    percentile [3, 1, 2] (1/2) none (fun _ => 0) = .ok 2 := by
  have h := percentile_round_trip [3, 1, 2] (1/2) none (fun _ => 0) (by decide)
  have hc : (⌈(1/2 : ℚ) * ((([3, 1, 2] : List ℚ).length : ℕ) : ℚ)⌉ : ℤ) = 2 := by
    rw [show (((([3, 1, 2] : List ℚ).length : ℕ)) : ℚ) = 3 by norm_num, Int.ceil_eq_iff]
    norm_num
  rw [h, hc]
  exact congrArg Except.ok (by decide)

/-- Witness for C10 at a concrete input. -/
theorem quickselect_no_failure_witness :
    (1 : ℕ) < ([3, 1, 2] : List ℚ).length ∧
    ((∃ v, quickselect [3, 1, 2] 1 (fun _ => 0) = .ok v) ∧
    (∃ k1 : ℤ, percentileIndex ([3, 1, 2] : List ℚ).length (1/2) .nearest_rank = .ok k1 ∧
      0 ≤ k1 ∧ k1 ≤ (([3, 1, 2] : List ℚ).length : ℤ) - 1) ∧
    (∀ m : Option PercentileMethod, ∃ v, percentile [3, 1, 2] (1/2) m (fun _ => 0) = .ok v)) :=
  ⟨by decide, quickselect_no_failure [3, 1, 2] 1 (fun _ => 0) (1/2) .nearest_rank (by decide)⟩

end Quickselect

/-! ## KLL streaming quantile sketch (`src/lib/kll/kll.ts`)

The sketch state is the list of levels (level `h` at position `h`, items in
insertion order) together with the index of the next `Math.random()` draw;
the draws themselves are an arbitrary Boolean oracle `rand` (`rand g = true`
models "the g-th draw was `< 0.5`"), so every random outcome corresponds to
some oracle.  `k` and `c` are the constructor-clamped parameters. -/

namespace KLL

/-- Total number of retained representatives (the `size()` accessor). -/
def totalSize (levels : List (List ℚ)) : ℕ := (levels.map List.length).sum

/-- Total represented mass `Σ len(level h) · 2^h`, written recursively:
`mass (L :: rest) = |L| + 2 · mass rest`. -/
def mass : List (List ℚ) → ℕ
  | [] => 0
  | L :: rest => L.length + 2 * mass rest

/-- Embeds `ensureLevel(h)`: pad with empty levels until index `h` exists. -/
def ensureLevel (levels : List (List ℚ)) (h : ℕ) : List (List ℚ) :=
  levels ++ List.replicate (h + 1 - levels.length) []

/-- Embeds `capacityAt(h)`: `max(2, evenFloor(k·c^(H-1-h)))` with
`H = max(1, levels.length)`. -/
def capacityAt (k : ℤ) (c : ℚ) (levels : List (List ℚ)) (h : ℕ) : ℤ :=
  let H := max 1 levels.length
  let top := H - 1
  let exp := top - h
  let raw := ⌊(k : ℚ) * c ^ exp⌋
  let even := if raw % 2 = 1 then raw - 1 else raw
  max 2 even

/-- Embeds the pairing loop of `compact`: one survivor per adjacent pair,
chosen by one oracle draw each (`rand g = true` keeps the right element).
The input always has even length (the singleton case is unreachable). -/
def pairSurvivors (rand : ℕ → Bool) : ℕ → List ℚ → List ℚ × ℕ
  | g, [] => ([], g)
  | g, [_] => ([], g)
  | g, a :: b :: rest =>
    let keep := if rand g then b else a
    let res := pairSurvivors rand (g + 1) rest
    (keep :: res.1, res.2)

/-- The `start`/`end` trimming of `compact`: on an odd count one oracle
draw decides whether the first (`start = 1`) or the last (`end = m - 1`)
element is dropped before pairing. -/
def trimOdd (rand : ℕ → Bool) (g : ℕ) (l : List ℚ) : List ℚ × ℕ :=
  if l.length % 2 = 1 then
    if rand g then (l.drop 1, g + 1) else (l.take (l.length - 1), g + 1)
  else (l, g)

/-- The body of `compact(h)` before the chained capacity check: sort the
level, on an odd count drop the first or last element by one oracle draw,
keep one survivor per adjacent pair, append the survivors to level `h+1`
and clear level `h`. -/
def compactStep (rand : ℕ → Bool) (levels : List (List ℚ)) (h g : ℕ) :
    List (List ℚ) × ℕ :=
  let L := levels.getD h []
  let sortedL := L.insertionSort (· ≤ ·)
  let tg := trimOdd rand g sortedL
  let res := pairSurvivors rand tg.2 tg.1
  let levels1 := ensureLevel levels (h + 1)
  let levels2 := levels1.set (h + 1) ((levels1.getD (h + 1) []) ++ res.1)
  let levels3 := levels2.set h []
  (levels3, res.2)

mutual
/-- Embeds `compact(h)` (early return below two items, then the step body,
then the chained capacity check of level `h+1`).  `fuel` bounds the chain
length; every call supplies at least `2·totalSize + 4`, which suffices
because each executed step removes at least one representative. -/
def compact (rand : ℕ → Bool) (k : ℤ) (c : ℚ) :
    ℕ → List (List ℚ) → ℕ → ℕ → List (List ℚ) × ℕ
  | 0, levels, _, g => (levels, g)
  | fuel + 1, levels, h, g =>
    if (levels.getD h []).length < 2 then (levels, g)
    else
      let res := compactStep rand levels h g
      maybeCompact rand k c fuel res.1 (h + 1) res.2

/-- Embeds `maybeCompact(h)`: ensure the level exists, then compact it when
its item count exceeds its capacity. -/
def maybeCompact (rand : ℕ → Bool) (k : ℤ) (c : ℚ) :
    ℕ → List (List ℚ) → ℕ → ℕ → List (List ℚ) × ℕ
  | 0, levels, _, g => (levels, g)
  | fuel + 1, levels, h, g =>
    let levels0 := ensureLevel levels h
    if capacityAt k c levels0 h < ((levels0.getD h []).length : ℤ) then
      compact rand k c fuel levels0 h g
    else (levels0, g)
end

/-- Embeds `compactUpward()`: one bottom-up sweep; the loop bound
re-reads `levels.length`, so the sweep is fuelled as well. -/
def compactUpward (rand : ℕ → Bool) (k : ℤ) (c : ℚ) :
    ℕ → List (List ℚ) → ℕ → ℕ → List (List ℚ) × ℕ
  | 0, levels, _, g => (levels, g)
  | fuel + 1, levels, h, g =>
    if h < levels.length then
      let res :=
        if capacityAt k c levels h < ((levels.getD h []).length : ℤ) then
          compact rand k c (2 * totalSize levels + 4) levels h g
        else (levels, g)
      compactUpward rand k c fuel res.1 (h + 1) res.2
    else (levels, g)

/-- Embeds `add(x)` for a finite `x` (non-finite values do not exist in the
rational model; the source silently drops them). -/
def add (rand : ℕ → Bool) (k : ℤ) (c : ℚ) (eager : Bool) (x : ℚ)
    (s : List (List ℚ) × ℕ) : List (List ℚ) × ℕ :=
  let levels0 := ensureLevel s.1 0
  let levels1 := levels0.set 0 ((levels0.getD 0 []) ++ [x])
  let res := maybeCompact rand k c (2 * totalSize levels1 + 4) levels1 0 s.2
  if eager then compactUpward rand k c (res.1.length + totalSize res.1 + 4) res.1 0 res.2
  else res

/-- Embeds `addMany(arr)` for finite values. -/
def addMany (rand : ℕ → Bool) (k : ℤ) (c : ℚ) (eager : Bool) (arr : List ℚ)
    (s : List (List ℚ) × ℕ) : List (List ℚ) × ℕ :=
  if arr.length = 0 then s
  else
    let levels0 := ensureLevel s.1 0
    let levels1 := levels0.set 0 ((levels0.getD 0 []) ++ arr)
    let res := maybeCompact rand k c (2 * totalSize levels1 + 4) levels1 0 s.2
    if eager then
      compactUpward rand k c (res.1.length + totalSize res.1 + 4) res.1 0 res.2
    else res

/-- A sketch built by streaming `add` over a finite stream, from the
freshly constructed state. -/
def build (rand : ℕ → Bool) (k : ℤ) (c : ℚ) (eager : Bool)
    (stream : List ℚ) : List (List ℚ) × ℕ :=
  stream.foldl (fun s x => add rand k c eager x s) ([], 0)

/-- One step of the `min()` fold: `if (v < m) m = v`. -/
def minStep (m : WithTop ℚ) (v : ℚ) : WithTop ℚ := if (v : WithTop ℚ) < m then v else m

/-- One step of the `max()` fold: `if (v > m) m = v`. -/
def maxStep (m : WithBot ℚ) (v : ℚ) : WithBot ℚ := if m < (v : WithBot ℚ) then v else m

/-- Embeds the `min()` fold over all retained items; `⊤` models the
`Infinity` start. -/
def minRep (levels : List (List ℚ)) : WithTop ℚ :=
  (levels.flatMap id).foldl minStep ⊤

/-- Embeds the `max()` fold over all retained items; `⊥` models the
`-Infinity` start. -/
def maxRep (levels : List (List ℚ)) : WithBot ℚ :=
  (levels.flatMap id).foldl maxStep ⊥

/-- The gathered `(value, implicit weight)` representatives, level by level
in item order (weight `2^h` at level `h`); `h` is the index of the first
level of the remaining list. -/
def gather : List (List ℚ) → ℕ → List (ℚ × ℕ)
  | [], _ => []
  | L :: rest, h => L.map (fun v => (v, 2 ^ h)) ++ gather rest (h + 1)

/-- Embeds the interpolation loop of `quantile`: walk the sorted
representatives accumulating mass; `prevCenter = none` models the
`NEGATIVE_INFINITY` start checked by `Number.isFinite`. -/
def walk (r : ℚ) : List (ℚ × ℕ) → ℚ → Option ℚ → ℚ → ℚ
  | [], _, _, prevVal => prevVal
  | (v, w) :: rest, cw, prevCenter, prevVal =>
    let center := cw + (w : ℚ) / 2
    if r ≤ center then
      match prevCenter with
      | none => v
      | some pc =>
        let span := center - pc
        if span ≤ 0 then v
        else prevVal + ((r - pc) / span) * (v - prevVal)
    else walk r rest (cw + (w : ℚ)) (some center) v

/-- Embeds `quantile(p)`.  `none` models the `NaN` returns; the `untop'`/
`unbot'` defaults are unreachable behind the `T = 0` guard, which forces a
non-empty set of representatives. -/
def quantile (levels : List (List ℚ)) (p : ℚ) : Option ℚ :=
  let T := mass levels
  if T = 0 then none
  else if p ≤ 0 then some ((minRep levels).untop' 0)
  else if 1 ≤ p then some ((maxRep levels).unbot' 0)
  else
    let M := totalSize levels
    if M = 0 then none
    else
      let pairs := (gather levels 0).insertionSort (fun a b => a.1 ≤ b.1)
      -- (named `sortedPairs levels` in the lemmas below)
      let r := p * ((T : ℚ) - 1)
      match pairs with
      | [] => none
      | (v0, _) :: _ => some (walk r pairs 0 none v0)

theorem getD_set_self' {α : Type} (l : List α) (i : ℕ) (v d : α) (hi : i < l.length) :
    (l.set i v).getD i d = v := by
  rw [List.getD_eq_getElem?_getD, List.getElem?_set_self hi]
  rfl

theorem getD_set_ne' {α : Type} (l : List α) (i n : ℕ) (v d : α) (h : n ≠ i) :
    (l.set i v).getD n d = l.getD n d := by
  rw [List.getD_eq_getElem?_getD, List.getElem?_set_ne (Ne.symm h),
    ← List.getD_eq_getElem?_getD]

theorem mass_append_nil (levels : List (List ℚ)) (n : ℕ) :
    mass (levels ++ List.replicate n []) = mass levels := by
  induction levels with
  | nil =>
    induction n with
    | zero => rfl
    | succ m ih => simpa [mass, List.replicate_succ] using ih
  | cons L rest ih => simpa [mass] using ih

theorem mass_ensureLevel (levels : List (List ℚ)) (h : ℕ) :
    mass (ensureLevel levels h) = mass levels := mass_append_nil levels _

theorem getD_ensureLevel (levels : List (List ℚ)) (h i : ℕ) :
    (ensureLevel levels h).getD i [] = levels.getD i [] := by
  rw [ensureLevel, List.getD_eq_getElem?_getD, List.getD_eq_getElem?_getD,
    List.getElem?_append]
  split
  · rfl
  · have h1 : levels[i]? = none := List.getElem?_eq_none (le_of_not_lt (by assumption))
    rw [h1]
    rcases lt_or_le (i - levels.length) (List.replicate (h + 1 - levels.length)
        ([] : List ℚ)).length with hlt | hge
    · rw [List.getElem?_eq_getElem hlt, List.getElem_replicate]
      rfl
    · rw [List.getElem?_eq_none hge]

theorem length_ensureLevel (levels : List (List ℚ)) (h : ℕ) :
    (ensureLevel levels h).length = max levels.length (h + 1) := by
  rw [ensureLevel, List.length_append, List.length_replicate]
  omega

theorem mass_set (levels : List (List ℚ)) (i : ℕ) (L : List ℚ) (hi : i < levels.length) :
    mass (levels.set i L) + (levels.getD i []).length * 2 ^ i
      = mass levels + L.length * 2 ^ i := by
  induction levels generalizing i with
  | nil => simp at hi
  | cons L0 rest ih =>
    cases i with
    | zero =>
      simp [mass]
      omega
    | succ n =>
      have := ih n (by simpa using hi)
      simp only [List.set_cons_succ, mass, List.getD_cons_succ, pow_succ]
      have h2 : ∀ x P : ℕ, x * (P * 2) = 2 * (x * P) := fun x P => by ring
      rw [h2, h2]
      omega

theorem pairSurvivors_length (rand : ℕ → Bool) (g : ℕ) (l : List ℚ) :
    (pairSurvivors rand g l).1.length = l.length / 2 := by
  induction g, l using pairSurvivors.induct rand with
  | case1 g => simp [pairSurvivors]
  | case2 g x => simp [pairSurvivors]
  | case3 g a b rest ih =>
    simp only [pairSurvivors, List.length_cons, ih]
    omega

/-- C1 (amended): one compaction step conserves the represented mass
exactly when the compacted level holds an even number of items; an odd
count loses exactly one item's weight `2^h` (the randomly dropped endpoint
is discarded for good, its mass with it).  Stated as an exact accounting
identity: mass after the step plus `(size mod 2)·2^h` equals mass before. -/
theorem compactStep_mass (rand : ℕ → Bool) (levels : List (List ℚ)) (h g : ℕ) :
    mass (compactStep rand levels h g).1 + (levels.getD h []).length % 2 * 2 ^ h
      = mass levels := by
  simp only [compactStep]
  set L := levels.getD h [] with hLdef
  set sortedL := L.insertionSort (· ≤ ·) with hsdef
  set lv1 := ensureLevel levels (h + 1) with hlv1
  set old := lv1.getD (h + 1) [] with holddef
  set surv := (pairSurvivors rand (trimOdd rand g sortedL).2 (trimOdd rand g sortedL).1).1
    with hsurv
  set lv2 := lv1.set (h + 1) (old ++ surv) with hlv2
  have hmL : sortedL.length = L.length := (List.perm_insertionSort _ _).length_eq
  have htrim : (trimOdd rand g sortedL).1.length = L.length - L.length % 2 := by
    rw [trimOdd]
    split
    · split <;> simp only [List.length_drop, List.length_take, hmL] <;> omega
    · rw [hmL]
      omega
  have hsl : surv.length = (L.length - L.length % 2) / 2 := by
    rw [hsurv, pairSurvivors_length, htrim]
  have hlv1len : h + 2 ≤ lv1.length := by
    rw [hlv1, length_ensureLevel]
    omega
  have heq1 : mass lv2 + old.length * 2 ^ (h + 1)
      = mass lv1 + (old ++ surv).length * 2 ^ (h + 1) := by
    rw [hlv2, holddef]
    exact mass_set lv1 (h + 1) (old ++ surv) (by omega)
  have heq2 : mass (lv2.set h []) + (lv2.getD h []).length * 2 ^ h
      = mass lv2 + ([] : List ℚ).length * 2 ^ h := mass_set lv2 h [] (by
        rw [hlv2, List.length_set]
        omega)
  have hgd2 : lv2.getD h [] = L := by
    rw [hlv2, getD_set_ne' lv1 (h + 1) h _ _ (by omega), hlv1, getD_ensureLevel]
  have heq3 : mass lv1 = mass levels := by
    rw [hlv1, mass_ensureLevel]
  rw [hgd2] at heq2
  rw [List.length_append] at heq1
  -- distribute and reduce the powers so the accounting is linear
  have hpow : ∀ a : ℕ, a * 2 ^ (h + 1) = 2 * (a * 2 ^ h) := by
    intro a
    ring
  rw [hpow old.length, hpow (old.length + surv.length)] at heq1
  have hdistrib : (old.length + surv.length) * 2 ^ h
      = old.length * 2 ^ h + surv.length * 2 ^ h := by ring
  rw [hdistrib] at heq1
  have hkey : 2 * (surv.length * 2 ^ h) + L.length % 2 * 2 ^ h = L.length * 2 ^ h := by
    have h1 : 2 * surv.length + L.length % 2 = L.length := by
      rw [hsl]
      omega
    calc 2 * (surv.length * 2 ^ h) + L.length % 2 * 2 ^ h
        = (2 * surv.length + L.length % 2) * 2 ^ h := by ring
      _ = L.length * 2 ^ h := by rw [h1]
  simp only [List.length_nil, Nat.zero_mul, Nat.add_zero] at heq2
  omega

theorem maybeCompact_eq (rand : ℕ → Bool) (k : ℤ) (c : ℚ) (fuel : ℕ)
    (levels : List (List ℚ)) (h g : ℕ) (hf : fuel ≠ 0) :
    maybeCompact rand k c fuel levels h g =
      if capacityAt k c (ensureLevel levels h) h
          < (((ensureLevel levels h).getD h []).length : ℤ) then
        compact rand k c (fuel - 1) (ensureLevel levels h) h g
      else (ensureLevel levels h, g) := by
  cases fuel with
  | zero => exact absurd rfl hf
  | succ n => rfl

theorem compact_eq (rand : ℕ → Bool) (k : ℤ) (c : ℚ) (fuel : ℕ)
    (levels : List (List ℚ)) (h g : ℕ) (hf : fuel ≠ 0) :
    compact rand k c fuel levels h g =
      if (levels.getD h []).length < 2 then (levels, g)
      else maybeCompact rand k c (fuel - 1) (compactStep rand levels h g).1 (h + 1)
        (compactStep rand levels h g).2 := by
  cases fuel with
  | zero => exact absurd rfl hf
  | succ n => rfl

theorem cap0_single (c : ℚ) (L : List ℚ) : capacityAt 8 c [L] 0 = 8 := by
  rw [capacityAt]
  simp only [List.length_cons, List.length_nil]
  norm_num

theorem ensureLevel_zero_of_ne (levels : List (List ℚ)) (h : levels ≠ []) :
    ensureLevel levels 0 = levels := by
  rw [ensureLevel, show 0 + 1 - levels.length = 0 by
    have := List.length_pos.mpr h
    omega]
  simp

/-- An `add` that stays within level-0 capacity appends to level 0 and
triggers no compaction. -/
theorem add_within_cap (rand : ℕ → Bool) (c : ℚ) (L : List ℚ) (x : ℚ) (g : ℕ)
    (hlen : L.length + 1 ≤ 8) :
    add rand 8 c false x ([L], g) = ([L ++ [x]], g) := by
  rw [add]
  simp only [ensureLevel_zero_of_ne [L] (by simp), List.getD_cons_zero,
    List.set_cons_zero, Bool.false_eq_true, if_false]
  rw [maybeCompact_eq _ _ _ _ _ _ _ (by omega),
    ensureLevel_zero_of_ne [L ++ [x]] (by simp)]
  rw [if_neg (by
    rw [cap0_single, List.getD_cons_zero, List.length_append, List.length_cons,
      List.length_nil]
    push_cast
    omega)]

theorem build_eight :
    build (fun _ => false) 8 (2/3) false [1, 2, 3, 4, 5, 6, 7, 8]
      = ([[1, 2, 3, 4, 5, 6, 7, 8]], 0) := by
  rw [build]
  simp only [List.foldl_cons, List.foldl_nil]
  rw [show add (fun _ => false) 8 (2/3) false 1 ([], 0) = ([[(1 : ℚ)]], 0) by
    rw [add]
    simp only [ensureLevel, Bool.false_eq_true, if_false]
    norm_num
    rw [maybeCompact_eq _ _ _ _ _ _ _ (by omega),
      ensureLevel_zero_of_ne [[(1 : ℚ)]] (by simp),
      if_neg (by rw [cap0_single]; norm_num)]]
  rw [add_within_cap _ _ _ _ _ (by norm_num), add_within_cap _ _ _ _ _ (by norm_num),
    add_within_cap _ _ _ _ _ (by norm_num), add_within_cap _ _ _ _ _ (by norm_num),
    add_within_cap _ _ _ _ _ (by norm_num), add_within_cap _ _ _ _ _ (by norm_num),
    add_within_cap _ _ _ _ _ (by norm_num)]
  norm_num

theorem cap1_double (c : ℚ) (L1 L2 : List ℚ) : capacityAt 8 c [L1, L2] 1 = 8 := by
  rw [capacityAt]
  simp only [List.length_cons, List.length_nil]
  norm_num

theorem add_ninth :
    add (fun _ => false) 8 (2/3) false 9 ([[1, 2, 3, 4, 5, 6, 7, 8]], 0)
      = ([[], [1, 3, 5, 7]], 5) := by
  rw [add]
  simp only [ensureLevel_zero_of_ne [[1, 2, 3, 4, 5, 6, 7, 8]] (by simp),
    List.getD_cons_zero, List.set_cons_zero, Bool.false_eq_true, if_false]
  rw [show ([1, 2, 3, 4, 5, 6, 7, 8] : List ℚ) ++ [9]
    = [1, 2, 3, 4, 5, 6, 7, 8, 9] from rfl]
  rw [maybeCompact_eq _ _ _ _ _ _ _ (by omega),
    ensureLevel_zero_of_ne _ (by simp)]
  rw [if_pos (by
    rw [cap0_single, List.getD_cons_zero]
    norm_num)]
  rw [compact_eq _ _ _ _ _ _ _ (by omega), if_neg (by norm_num)]
  have hstep : compactStep (fun _ => false) [[1, 2, 3, 4, 5, 6, 7, 8, 9]] 0 0
      = ([[], [1, 3, 5, 7]], 5) := by
    rw [compactStep]
    simp only [List.getD_cons_zero]
    rw [show (([1, 2, 3, 4, 5, 6, 7, 8, 9] : List ℚ).insertionSort (· ≤ ·))
        = [1, 2, 3, 4, 5, 6, 7, 8, 9] by decide]
    rw [show trimOdd (fun _ => false) 0 [1, 2, 3, 4, 5, 6, 7, 8, 9]
        = ([1, 2, 3, 4, 5, 6, 7, 8], 1) by decide]
    rw [show pairSurvivors (fun _ => false) 1 [1, 2, 3, 4, 5, 6, 7, 8]
        = ([1, 3, 5, 7], 5) by decide]
    rw [show ensureLevel [[1, 2, 3, 4, 5, 6, 7, 8, 9]] 1
        = [[1, 2, 3, 4, 5, 6, 7, 8, 9], []] by decide]
    rfl
  rw [hstep]
  rw [maybeCompact_eq _ _ _ _ _ _ _ (by omega)]
  rw [show ensureLevel [[], [1, 3, 5, 7]] 1 = [[], [1, 3, 5, 7]] by decide]
  rw [if_neg (by
    rw [cap1_double]
    norm_num)]

/-- C1 counterexample: with `k = 8`, the first eight unit-weight insertions
leave mass 8 (one per insertion, no compaction), and the ninth insertion —
which pushes the represented mass to 9 and triggers a compaction of level 0
(nine items, odd) — leaves mass 8 again: the compaction triggered by that
insertion lost one unit of mass instead of conserving it. -/
theorem kll_mass_counterexample :
    mass (build (fun _ => false) 8 (2/3) false [1, 2, 3, 4, 5, 6, 7, 8]).1 = 8 ∧
    mass [[(1 : ℚ), 2, 3, 4, 5, 6, 7, 8, 9]] = 9 ∧
    mass (build (fun _ => false) 8 (2/3) false [1, 2, 3, 4, 5, 6, 7, 8, 9]).1 = 8 := by
  refine ⟨by rw [build_eight]; rfl, by rfl, ?_⟩
  have h9 : build (fun _ => false) 8 (2/3) false [1, 2, 3, 4, 5, 6, 7, 8, 9]
      = add (fun _ => false) 8 (2/3) false 9
          (build (fun _ => false) 8 (2/3) false [1, 2, 3, 4, 5, 6, 7, 8]) := by
    rw [build, build, show ([1, 2, 3, 4, 5, 6, 7, 8, 9] : List ℚ)
      = [1, 2, 3, 4, 5, 6, 7, 8] ++ [9] by rfl, List.foldl_append]
    rfl
  rw [h9, build_eight, add_ninth]
  rfl

/-- Every value retained anywhere in the level structure satisfies `P`. -/
def retained (levels : List (List ℚ)) (P : ℚ → Prop) : Prop :=
  ∀ L ∈ levels, ∀ v ∈ L, P v

theorem retained_getD (levels : List (List ℚ)) (P : ℚ → Prop) (h : ℕ)
    (hr : retained levels P) : ∀ v ∈ levels.getD h [], P v := by
  intro v hv
  rcases lt_or_le h levels.length with hh | hh
  · rw [List.getD_eq_getElem?_getD, List.getElem?_eq_getElem hh] at hv
    exact hr _ (List.getElem_mem hh) v hv
  · rw [List.getD_eq_getElem?_getD, List.getElem?_eq_none hh] at hv
    simp at hv

theorem retained_ensureLevel (levels : List (List ℚ)) (P : ℚ → Prop) (h : ℕ)
    (hr : retained levels P) : retained (ensureLevel levels h) P := by
  intro L hL v hv
  rcases List.mem_append.mp hL with hL1 | hL2
  · exact hr L hL1 v hv
  · rw [List.eq_of_mem_replicate hL2] at hv
    simp at hv

theorem retained_set (levels : List (List ℚ)) (P : ℚ → Prop) (i : ℕ) (L' : List ℚ)
    (hr : retained levels P) (hL' : ∀ v ∈ L', P v) : retained (levels.set i L') P := by
  intro L hL v hv
  rcases List.mem_or_eq_of_mem_set hL with hmem | rfl
  · exact hr L hmem v hv
  · exact hL' v hv

theorem pairSurvivors_subset (rand : ℕ → Bool) (g : ℕ) (l : List ℚ) :
    ∀ v ∈ (pairSurvivors rand g l).1, v ∈ l := by
  induction g, l using pairSurvivors.induct rand with
  | case1 g => simp [pairSurvivors]
  | case2 g x => simp [pairSurvivors]
  | case3 g a b rest ih =>
    intro v hv
    simp only [pairSurvivors, List.mem_cons] at hv
    rcases hv with rfl | hv
    · split <;> simp
    · have := ih v hv
      simp [this]

theorem trimOdd_subset (rand : ℕ → Bool) (g : ℕ) (l : List ℚ) :
    ∀ v ∈ (trimOdd rand g l).1, v ∈ l := by
  intro v hv
  rw [trimOdd] at hv
  split at hv
  · split at hv
    · exact List.mem_of_mem_drop hv
    · exact List.mem_of_mem_take hv
  · exact hv

theorem compactStep_retained (rand : ℕ → Bool) (levels : List (List ℚ)) (h g : ℕ)
    (P : ℚ → Prop) (hr : retained levels P) :
    retained (compactStep rand levels h g).1 P := by
  rw [compactStep]
  apply retained_set
  · apply retained_set
    · exact retained_ensureLevel _ _ _ hr
    · intro v hv
      rcases List.mem_append.mp hv with hv1 | hv2
      · exact retained_getD _ P (h + 1) (retained_ensureLevel _ _ _ hr) v hv1
      · have h1 := pairSurvivors_subset rand _ _ v hv2
        have h2 := trimOdd_subset rand g _ _ h1
        have h3 : v ∈ levels.getD h [] := (List.perm_insertionSort _ _).mem_iff.mp h2
        exact retained_getD _ P h hr v h3
  · intro v hv
    simp at hv

theorem compact_maybe_retained (rand : ℕ → Bool) (k : ℤ) (c : ℚ) (P : ℚ → Prop) :
    ∀ fuel,
      (∀ levels h g, retained levels P → retained (compact rand k c fuel levels h g).1 P) ∧
      (∀ levels h g, retained levels P →
        retained (maybeCompact rand k c fuel levels h g).1 P) := by
  intro fuel
  induction fuel with
  | zero => exact ⟨fun levels h g hr => hr, fun levels h g hr => hr⟩
  | succ n ih =>
    constructor
    · intro levels h g hr
      rw [compact]
      split
      · exact hr
      · exact ih.2 _ _ _ (compactStep_retained rand levels h g P hr)
    · intro levels h g hr
      rw [maybeCompact]
      split
      · exact ih.1 _ _ _ (retained_ensureLevel _ _ _ hr)
      · exact retained_ensureLevel _ _ _ hr

theorem compactUpward_retained (rand : ℕ → Bool) (k : ℤ) (c : ℚ) (P : ℚ → Prop) :
    ∀ fuel levels h g, retained levels P →
      retained (compactUpward rand k c fuel levels h g).1 P := by
  intro fuel
  induction fuel with
  | zero => exact fun levels h g hr => hr
  | succ n ih =>
    intro levels h g hr
    rw [compactUpward]
    split
    · apply ih
      split
      · exact (compact_maybe_retained rand k c P _).1 _ _ _ hr
      · exact hr
    · exact hr

theorem add_retained (rand : ℕ → Bool) (k : ℤ) (c : ℚ) (eager : Bool) (x : ℚ)
    (s : List (List ℚ) × ℕ) (P : ℚ → Prop) (hr : retained s.1 P) (hx : P x) :
    retained (add rand k c eager x s).1 P := by
  simp only [add]
  have h1 : retained ((ensureLevel s.1 0).set 0 ((ensureLevel s.1 0).getD 0 [] ++ [x])) P := by
    apply retained_set _ _ _ _ (retained_ensureLevel _ _ _ hr)
    intro v hv
    rcases List.mem_append.mp hv with hv1 | hv2
    · exact retained_getD _ P 0 (retained_ensureLevel _ _ _ hr) v hv1
    · rw [List.mem_singleton.mp hv2]
      exact hx
  split
  · exact compactUpward_retained rand k c P _ _ 0 _
      ((compact_maybe_retained rand k c P _).2 _ 0 s.2 h1)
  · exact (compact_maybe_retained rand k c P _).2 _ 0 s.2 h1

theorem build_retained (rand : ℕ → Bool) (k : ℤ) (c : ℚ) (eager : Bool)
    (stream : List ℚ) :
    retained (build rand k c eager stream).1 (fun v => v ∈ stream) := by
  suffices hgen : ∀ (l : List ℚ) (s : List (List ℚ) × ℕ) (P : ℚ → Prop),
      retained s.1 P → (∀ x ∈ l, P x) →
      retained (l.foldl (fun s x => add rand k c eager x s) s).1 P by
    apply hgen _ _ _ _ (fun x hx => hx)
    intro L hL
    simp at hL
  intro l
  induction l with
  | nil => exact fun s P hr _ => hr
  | cons x xs ih =>
    intro s P hr hl
    simp only [List.foldl_cons]
    exact ih _ P (add_retained rand k c eager x s P hr (hl x (by simp)))
      (fun y hy => hl y (by simp [hy]))

theorem convex_bound (f a b lo hi : ℚ) (hf0 : 0 ≤ f) (hf1 : f ≤ 1)
    (ha1 : lo ≤ a) (ha2 : a ≤ hi) (hb1 : lo ≤ b) (hb2 : b ≤ hi) :
    lo ≤ a + f * (b - a) ∧ a + f * (b - a) ≤ hi := by
  constructor <;> nlinarith

/-- The branch of `walk` taken when the target rank is at or before the
current bucket center. -/
def stopVal (r cw pv v : ℚ) (w : ℕ) (pc : Option ℚ) : ℚ :=
  match pc with
  | none => v
  | some pc' =>
    if cw + (w : ℚ) / 2 - pc' ≤ 0 then v
    else pv + ((r - pc') / (cw + (w : ℚ) / 2 - pc')) * (v - pv)

theorem walk_cons (r v : ℚ) (w : ℕ) (rest : List (ℚ × ℕ)) (cw : ℚ) (pc : Option ℚ)
    (pv : ℚ) :
    walk r ((v, w) :: rest) cw pc pv =
      if r ≤ cw + (w : ℚ) / 2 then stopVal r cw pv v w pc
      else walk r rest (cw + (w : ℚ)) (some (cw + (w : ℚ) / 2)) v := rfl

theorem stopVal_bounds (r cw pv v : ℚ) (w : ℕ) (pc : Option ℚ)
    (hpc : ∀ x, pc = some x → x < r) (hg : r ≤ cw + (w : ℚ) / 2) :
    min pv v ≤ stopVal r cw pv v w pc ∧ stopVal r cw pv v w pc ≤ max pv v := by
  match pc with
  | none => exact ⟨min_le_right _ _, le_max_right _ _⟩
  | some pc' =>
    rw [stopVal]
    by_cases hsp : cw + (w : ℚ) / 2 - pc' ≤ 0
    · rw [if_pos hsp]
      exact ⟨min_le_right _ _, le_max_right _ _⟩
    · rw [if_neg hsp]
      have hspan : (0 : ℚ) < cw + (w : ℚ) / 2 - pc' := not_le.mp hsp
      have hf0 : 0 ≤ (r - pc') / (cw + (w : ℚ) / 2 - pc') :=
        div_nonneg (by linarith [hpc pc' rfl]) hspan.le
      have hf1 : (r - pc') / (cw + (w : ℚ) / 2 - pc') ≤ 1 := by
        rw [div_le_one hspan]
        linarith
      exact convex_bound _ pv v _ _ hf0 hf1 (min_le_left _ _) (le_max_left _ _)
        (min_le_right _ _) (le_max_right _ _)

theorem stopVal_le_v (r cw pv v : ℚ) (w : ℕ) (pc : Option ℚ)
    (hpc : ∀ x, pc = some x → x < r) (hg : r ≤ cw + (w : ℚ) / 2) (hpv : pv ≤ v) :
    stopVal r cw pv v w pc ≤ v := by
  match pc with
  | none => exact le_refl _
  | some pc' =>
    rw [stopVal]
    by_cases hsp : cw + (w : ℚ) / 2 - pc' ≤ 0
    · rw [if_pos hsp]
    · rw [if_neg hsp]
      have hspan : (0 : ℚ) < cw + (w : ℚ) / 2 - pc' := not_le.mp hsp
      have hf1 : (r - pc') / (cw + (w : ℚ) / 2 - pc') ≤ 1 := by
        rw [div_le_one hspan]
        linarith
      nlinarith

theorem stopVal_mono (r1 r2 cw pv v : ℚ) (w : ℕ) (pc : Option ℚ) (hr : r1 ≤ r2)
    (hpc : ∀ x, pc = some x → x < r1) (hpv : pv ≤ v) :
    stopVal r1 cw pv v w pc ≤ stopVal r2 cw pv v w pc := by
  match pc with
  | none => exact le_refl _
  | some pc' =>
    rw [stopVal, stopVal]
    by_cases hsp : cw + (w : ℚ) / 2 - pc' ≤ 0
    · rw [if_pos hsp, if_pos hsp]
    · rw [if_neg hsp, if_neg hsp]
      have hspan : (0 : ℚ) < cw + (w : ℚ) / 2 - pc' := not_le.mp hsp
      have hdiv : (r1 - pc') / (cw + (w : ℚ) / 2 - pc')
          ≤ (r2 - pc') / (cw + (w : ℚ) / 2 - pc') := by
        apply div_le_div_of_nonneg_right ?_ hspan.le
        linarith
      nlinarith

/-- The interpolation walk never goes below a lower bound of the previous
value and all remaining representative values. -/
theorem walk_lower (r lo : ℚ) : ∀ (pairs : List (ℚ × ℕ)) (cw : ℚ) (pc : Option ℚ)
    (pv : ℚ), (∀ x, pc = some x → x < r) → lo ≤ pv →
    (∀ vw ∈ pairs, lo ≤ vw.1) → lo ≤ walk r pairs cw pc pv := by
  intro pairs
  induction pairs with
  | nil => intro cw pc pv hpc hpv hall; exact hpv
  | cons vw rest ih =>
    intro cw pc pv hpc hpv hall
    obtain ⟨v, w⟩ := vw
    have hv : lo ≤ v := hall (v, w) (by simp)
    rw [walk_cons]
    by_cases hg : r ≤ cw + (w : ℚ) / 2
    · rw [if_pos hg]
      exact le_trans (le_min hpv hv) (stopVal_bounds r cw pv v w pc hpc hg).1
    · rw [if_neg hg]
      apply ih (cw + (w : ℚ)) (some (cw + (w : ℚ) / 2)) v
      · intro x hx
        rw [← Option.some_inj.mp hx]
        exact not_le.mp hg
      · exact hv
      · exact fun x hx => hall x (by simp [hx])

/-- The interpolation walk never exceeds an upper bound of the previous
value and all remaining representative values. -/
theorem walk_upper (r hi : ℚ) : ∀ (pairs : List (ℚ × ℕ)) (cw : ℚ) (pc : Option ℚ)
    (pv : ℚ), (∀ x, pc = some x → x < r) → pv ≤ hi →
    (∀ vw ∈ pairs, vw.1 ≤ hi) → walk r pairs cw pc pv ≤ hi := by
  intro pairs
  induction pairs with
  | nil => intro cw pc pv hpc hpv hall; exact hpv
  | cons vw rest ih =>
    intro cw pc pv hpc hpv hall
    obtain ⟨v, w⟩ := vw
    have hv : v ≤ hi := hall (v, w) (by simp)
    rw [walk_cons]
    by_cases hg : r ≤ cw + (w : ℚ) / 2
    · rw [if_pos hg]
      exact le_trans (stopVal_bounds r cw pv v w pc hpc hg).2 (max_le hpv hv)
    · rw [if_neg hg]
      apply ih (cw + (w : ℚ)) (some (cw + (w : ℚ) / 2)) v
      · intro x hx
        rw [← Option.some_inj.mp hx]
        exact not_le.mp hg
      · exact hv
      · exact fun x hx => hall x (by simp [hx])

/-- The interpolation walk is monotone in the target rank over a
value-sorted representative list. -/
theorem walk_mono (r1 r2 : ℚ) (hr : r1 ≤ r2) :
    ∀ (pairs : List (ℚ × ℕ)) (cw : ℚ) (pc : Option ℚ) (pv : ℚ),
    List.Sorted (· ≤ ·) (pv :: pairs.map Prod.fst) →
    (∀ x, pc = some x → x < r1) →
    walk r1 pairs cw pc pv ≤ walk r2 pairs cw pc pv := by
  intro pairs
  induction pairs with
  | nil => intro cw pc pv hsort hpc; exact le_refl _
  | cons vw rest ih =>
    intro cw pc pv hsort hpc
    obtain ⟨v, w⟩ := vw
    have hpv : pv ≤ v := List.rel_of_sorted_cons hsort (v, w).1 (by simp)
    have hsort2 : List.Sorted (· ≤ ·) (v :: rest.map Prod.fst) :=
      (List.sorted_cons.mp hsort).2
    rw [walk_cons, walk_cons]
    by_cases hg2 : r2 ≤ cw + (w : ℚ) / 2
    · have hg1 : r1 ≤ cw + (w : ℚ) / 2 := le_trans hr hg2
      rw [if_pos hg1, if_pos hg2]
      exact stopVal_mono r1 r2 cw pv v w pc hr hpc hpv
    · rw [if_neg hg2]
      by_cases hg1 : r1 ≤ cw + (w : ℚ) / 2
      · rw [if_pos hg1]
        refine le_trans (stopVal_le_v r1 cw pv v w pc hpc hg1 hpv) ?_
        apply walk_lower r2 v rest (cw + (w : ℚ)) (some (cw + (w : ℚ) / 2)) v
        · intro x hx
          rw [← Option.some_inj.mp hx]
          exact not_le.mp hg2
        · exact le_refl v
        · intro x hx
          exact List.rel_of_sorted_cons hsort2 x.1 (List.mem_map_of_mem Prod.fst hx)
      · rw [if_neg hg1]
        apply ih (cw + (w : ℚ)) (some (cw + (w : ℚ) / 2)) v hsort2
        intro x hx
        rw [← Option.some_inj.mp hx]
        exact not_le.mp hg1

theorem gather_mem (levels : List (List ℚ)) (h : ℕ) (v : ℚ) (w : ℕ)
    (hm : (v, w) ∈ gather levels h) : ∃ L ∈ levels, v ∈ L := by
  induction levels generalizing h with
  | nil => simp [gather] at hm
  | cons L rest ih =>
    rw [gather] at hm
    rcases List.mem_append.mp hm with h1 | h2
    · obtain ⟨x, hx, hxe⟩ := List.mem_map.mp h1
      exact ⟨L, by simp, by rw [← (Prod.mk.injEq .. ▸ hxe : x = v ∧ _).1]; exact hx⟩
    · obtain ⟨L', hL', hvL'⟩ := ih (h + 1) h2
      exact ⟨L', by simp [hL'], hvL'⟩

theorem gather_ne_nil (levels : List (List ℚ)) (h : ℕ) (L : List ℚ) (v : ℚ)
    (hL : L ∈ levels) (hv : v ∈ L) : gather levels h ≠ [] := by
  induction levels generalizing h with
  | nil => simp at hL
  | cons L0 rest ih =>
    rw [gather]
    rcases List.mem_cons.mp hL with rfl | hL'
    · cases L with
      | nil => simp at hv
      | cons a as => simp
    · intro hcontra
      exact ih (h + 1) hL' (List.append_eq_nil.mp hcontra).2

theorem mass_ne_zero_witness (levels : List (List ℚ)) (hm : mass levels ≠ 0) :
    ∃ L ∈ levels, ∃ v, v ∈ L := by
  induction levels with
  | nil => simp [mass] at hm
  | cons L rest ih =>
    rw [mass] at hm
    rcases Nat.eq_zero_or_pos L.length with hL | hL
    · have hrest : mass rest ≠ 0 := by omega
      obtain ⟨L', hL', v, hv⟩ := ih hrest
      exact ⟨L', by simp [hL'], v, hv⟩
    · cases L with
      | nil => simp at hL
      | cons a as => exact ⟨a :: as, by simp, a, by simp⟩

theorem foldl_min_spec (l : List ℚ) :
    ∀ acc : WithTop ℚ,
      (l.foldl minStep acc ≤ acc ∧ ∀ v ∈ l, l.foldl minStep acc ≤ (v : WithTop ℚ)) ∧
      (l.foldl minStep acc = acc ∨ ∃ v ∈ l, l.foldl minStep acc = (v : WithTop ℚ)) := by
  induction l with
  | nil => exact fun acc => ⟨⟨le_refl _, fun v hv => absurd hv (List.not_mem_nil v)⟩,
      Or.inl rfl⟩
  | cons x xs ih =>
    intro acc
    rw [List.foldl_cons]
    have hstep : minStep acc x ≤ acc ∧ minStep acc x ≤ (x : WithTop ℚ) := by
      rw [minStep]
      split
      · exact ⟨le_of_lt (by assumption), le_refl _⟩
      · exact ⟨le_refl _, not_lt.mp (by assumption)⟩
    obtain ⟨⟨hle, hall⟩, hcases⟩ := ih (minStep acc x)
    refine ⟨⟨le_trans hle hstep.1, ?_⟩, ?_⟩
    · intro v hv
      rcases List.mem_cons.mp hv with rfl | hv'
      · exact le_trans hle hstep.2
      · exact hall v hv'
    · rcases hcases with heq | ⟨v, hv, heq⟩
      · rw [heq, minStep]
        split
        · exact Or.inr ⟨x, by simp, rfl⟩
        · exact Or.inl rfl
      · exact Or.inr ⟨v, by simp [hv], heq⟩

theorem foldl_max_spec (l : List ℚ) :
    ∀ acc : WithBot ℚ,
      (acc ≤ l.foldl maxStep acc ∧ ∀ v ∈ l, (v : WithBot ℚ) ≤ l.foldl maxStep acc) ∧
      (l.foldl maxStep acc = acc ∨ ∃ v ∈ l, l.foldl maxStep acc = (v : WithBot ℚ)) := by
  induction l with
  | nil => exact fun acc => ⟨⟨le_refl _, fun v hv => absurd hv (List.not_mem_nil v)⟩,
      Or.inl rfl⟩
  | cons x xs ih =>
    intro acc
    rw [List.foldl_cons]
    have hstep : acc ≤ maxStep acc x ∧ (x : WithBot ℚ) ≤ maxStep acc x := by
      rw [maxStep]
      split
      · exact ⟨le_of_lt (by assumption), le_refl _⟩
      · exact ⟨le_refl _, not_lt.mp (by assumption)⟩
    obtain ⟨⟨hle, hall⟩, hcases⟩ := ih (maxStep acc x)
    refine ⟨⟨le_trans hstep.1 hle, ?_⟩, ?_⟩
    · intro v hv
      rcases List.mem_cons.mp hv with rfl | hv'
      · exact le_trans hstep.2 hle
      · exact hall v hv'
    · rcases hcases with heq | ⟨v, hv, heq⟩
      · rw [heq, maxStep]
        split
        · exact Or.inr ⟨x, by simp, rfl⟩
        · exact Or.inl rfl
      · exact Or.inr ⟨v, by simp [hv], heq⟩

theorem flatMap_id_mem (levels : List (List ℚ)) (v : ℚ) :
    v ∈ levels.flatMap id ↔ ∃ L ∈ levels, v ∈ L := by
  rw [List.mem_flatMap]
  simp

/-- For a non-empty sketch, the `min()` fold returns one of the retained
values and bounds all of them from below. -/
theorem minRep_spec (levels : List (List ℚ)) (L : List ℚ) (x : ℚ)
    (hL : L ∈ levels) (hx : x ∈ L) :
    ∃ v : ℚ, minRep levels = (v : WithTop ℚ) ∧ (∃ L' ∈ levels, v ∈ L') ∧
      ∀ u : ℚ, (∃ L' ∈ levels, u ∈ L') → v ≤ u := by
  obtain ⟨⟨hle, hall⟩, hcases⟩ := foldl_min_spec (levels.flatMap id) ⊤
  rcases hcases with heq | ⟨v, hv, heq⟩
  · exfalso
    have hmem : x ∈ levels.flatMap id := (flatMap_id_mem levels x).mpr ⟨L, hL, hx⟩
    have hb := hall x hmem
    rw [heq] at hb
    exact absurd hb (by simp)
  · refine ⟨v, heq, (flatMap_id_mem levels v).mp hv, ?_⟩
    intro u hu
    have hb := hall u ((flatMap_id_mem levels u).mpr hu)
    rw [heq] at hb
    exact_mod_cast hb

/-- For a non-empty sketch, the `max()` fold returns one of the retained
values and bounds all of them from above. -/
theorem maxRep_spec (levels : List (List ℚ)) (L : List ℚ) (x : ℚ)
    (hL : L ∈ levels) (hx : x ∈ L) :
    ∃ v : ℚ, maxRep levels = (v : WithBot ℚ) ∧ (∃ L' ∈ levels, v ∈ L') ∧
      ∀ u : ℚ, (∃ L' ∈ levels, u ∈ L') → u ≤ v := by
  obtain ⟨⟨hle, hall⟩, hcases⟩ := foldl_max_spec (levels.flatMap id) ⊥
  rcases hcases with heq | ⟨v, hv, heq⟩
  · exfalso
    have hmem : x ∈ levels.flatMap id := (flatMap_id_mem levels x).mpr ⟨L, hL, hx⟩
    have hb := hall x hmem
    rw [heq] at hb
    exact absurd hb (by simp)
  · refine ⟨v, heq, (flatMap_id_mem levels v).mp hv, ?_⟩
    intro u hu
    have hb := hall u ((flatMap_id_mem levels u).mpr hu)
    rw [heq] at hb
    exact_mod_cast hb

instance : IsTotal (ℚ × ℕ) (fun a b => a.1 ≤ b.1) := ⟨fun a b => le_total a.1 b.1⟩

instance : IsTrans (ℚ × ℕ) (fun a b => a.1 ≤ b.1) := ⟨fun _ _ _ h1 h2 => le_trans h1 h2⟩

theorem totalSize_ne_zero (levels : List (List ℚ)) (L : List ℚ) (x : ℚ)
    (hL : L ∈ levels) (hx : x ∈ L) : totalSize levels ≠ 0 := by
  rw [totalSize]
  intro hsum
  have hzero := List.sum_eq_zero_iff.mp hsum L.length (List.mem_map_of_mem _ hL)
  rw [List.length_eq_zero.mp hzero] at hx
  exact List.not_mem_nil x hx

/-- The sorted representative list underlying the interior branch of
`quantile`. -/
def sortedPairs (levels : List (List ℚ)) : List (ℚ × ℕ) :=
  (gather levels 0).insertionSort (fun a b => a.1 ≤ b.1)

theorem sortedPairs_perm (levels : List (List ℚ)) :
    List.Perm (sortedPairs levels) (gather levels 0) :=
  List.perm_insertionSort _ _

theorem sortedPairs_sorted (levels : List (List ℚ)) :
    List.Sorted (· ≤ ·) ((sortedPairs levels).map Prod.fst) := by
  have h := List.sorted_insertionSort (fun (a b : ℚ × ℕ) => a.1 ≤ b.1) (gather levels 0)
  rw [List.Sorted, List.pairwise_map]
  exact h

theorem sortedPairs_values (levels : List (List ℚ)) (vw : ℚ × ℕ)
    (hm : vw ∈ sortedPairs levels) : ∃ L ∈ levels, vw.1 ∈ L := by
  have h := (sortedPairs_perm levels).mem_iff.mp hm
  exact gather_mem levels 0 vw.1 vw.2 (by rw [← (show (vw.1, vw.2) = vw from rfl)] at h; exact h)

theorem sortedPairs_ne_nil (levels : List (List ℚ)) (L : List ℚ) (x : ℚ)
    (hL : L ∈ levels) (hx : x ∈ L) : sortedPairs levels ≠ [] := by
  intro hcontra
  have h1 := gather_ne_nil levels 0 L x hL hx
  have h2 := (sortedPairs_perm levels).length_eq
  rw [hcontra] at h2
  exact h1 (List.length_eq_zero.mp h2.symm)

theorem quantile_interior (levels : List (List ℚ)) (p : ℚ) (hT : mass levels ≠ 0)
    (hp0 : ¬ p ≤ 0) (hp1 : ¬ 1 ≤ p) (L : List ℚ) (x : ℚ) (hL : L ∈ levels)
    (hx : x ∈ L) :
    ∃ v0 w0 rest, sortedPairs levels = (v0, w0) :: rest ∧
      quantile levels p
        = some (walk (p * ((mass levels : ℚ) - 1)) (sortedPairs levels) 0 none v0) := by
  obtain ⟨v0w0, rest, hcons⟩ :=
    List.exists_cons_of_ne_nil (sortedPairs_ne_nil levels L x hL hx)
  obtain ⟨v0, w0⟩ := v0w0
  refine ⟨v0, w0, rest, hcons, ?_⟩
  rw [quantile]
  simp only [if_neg hT, if_neg hp0, if_neg hp1,
    if_neg (totalSize_ne_zero levels L x hL hx)]
  rw [show (gather levels 0).insertionSort (fun a b => a.1 ≤ b.1) = sortedPairs levels
    from rfl, hcons]

theorem quantile_low (levels : List (List ℚ)) (p : ℚ) (hT : mass levels ≠ 0)
    (hp : p ≤ 0) : quantile levels p = some ((minRep levels).untop' 0) := by
  rw [quantile]
  simp only [if_neg hT, if_pos hp]

theorem quantile_high (levels : List (List ℚ)) (p : ℚ) (hT : mass levels ≠ 0)
    (hp0 : ¬ p ≤ 0) (hp : 1 ≤ p) :
    quantile levels p = some ((maxRep levels).unbot' 0) := by
  rw [quantile]
  simp only [if_neg hT, if_neg hp0, if_pos hp]

theorem untop_coe (v : ℚ) : ((v : WithTop ℚ)).untop' 0 = v := rfl

theorem unbot_coe (v : ℚ) : ((v : WithBot ℚ)).unbot' 0 = v := rfl

/-- Monotonicity of `quantile` in `p`, over any sketch state. -/
theorem quantile_mono (levels : List (List ℚ)) (p1 p2 q1 q2 : ℚ) (hp : p1 ≤ p2)
    (h1 : quantile levels p1 = some q1) (h2 : quantile levels p2 = some q2) :
    q1 ≤ q2 := by
  by_cases hT : mass levels = 0
  · rw [quantile, if_pos hT] at h1
    exact absurd h1 (by simp)
  obtain ⟨L, hL, x, hx⟩ := mass_ne_zero_witness levels hT
  obtain ⟨vmin, hmineq, hminmem, hminle⟩ := minRep_spec levels L x hL hx
  obtain ⟨vmax, hmaxeq, hmaxmem, hmaxle⟩ := maxRep_spec levels L x hL hx
  have hminmax : vmin ≤ vmax := le_trans (hminle x ⟨L, hL, hx⟩) (hmaxle x ⟨L, hL, hx⟩)
  have hT1 : (1 : ℚ) ≤ (mass levels : ℚ) := by
    have : 1 ≤ mass levels := Nat.one_le_iff_ne_zero.mpr hT
    exact_mod_cast this
  by_cases hp1 : p1 ≤ 0
  · rw [quantile_low levels p1 hT hp1, hmineq, untop_coe] at h1
    by_cases hp2 : p2 ≤ 0
    · rw [quantile_low levels p2 hT hp2, hmineq, untop_coe] at h2
      rw [← Option.some_inj.mp h1, ← Option.some_inj.mp h2]
    by_cases hp2b : 1 ≤ p2
    · rw [quantile_high levels p2 hT hp2 hp2b, hmaxeq, unbot_coe] at h2
      rw [← Option.some_inj.mp h1, ← Option.some_inj.mp h2]
      exact hminmax
    · obtain ⟨v0, w0, rest, hcons, heq⟩ :=
        quantile_interior levels p2 hT hp2 hp2b L x hL hx
      rw [heq] at h2
      rw [← Option.some_inj.mp h1, ← Option.some_inj.mp h2]
      apply walk_lower _ vmin
      · intro y hy
        exact absurd hy (by simp)
      · have : (v0, w0) ∈ sortedPairs levels := by rw [hcons]; simp
        obtain ⟨L', hL', hv0⟩ := sortedPairs_values levels _ this
        exact hminle v0 ⟨L', hL', hv0⟩
      · intro vw hvw
        obtain ⟨L', hL', hvw'⟩ := sortedPairs_values levels vw hvw
        exact hminle vw.1 ⟨L', hL', hvw'⟩
  · by_cases hp1b : 1 ≤ p1
    · have hp2b : 1 ≤ p2 := le_trans hp1b hp
      have hp2 : ¬ p2 ≤ 0 := by linarith
      rw [quantile_high levels p1 hT hp1 hp1b, hmaxeq, unbot_coe] at h1
      rw [quantile_high levels p2 hT hp2 hp2b, hmaxeq, unbot_coe] at h2
      rw [← Option.some_inj.mp h1, ← Option.some_inj.mp h2]
    · obtain ⟨v0, w0, rest, hcons, heq1⟩ :=
        quantile_interior levels p1 hT hp1 hp1b L x hL hx
      rw [heq1] at h1
      have hallvals : ∀ vw ∈ sortedPairs levels, vw.1 ≤ vmax := by
        intro vw hvw
        obtain ⟨L', hL', hvw'⟩ := sortedPairs_values levels vw hvw
        exact hmaxle vw.1 ⟨L', hL', hvw'⟩
      have hv0 : v0 ≤ vmax := by
        have : (v0, w0) ∈ sortedPairs levels := by rw [hcons]; simp
        exact hallvals _ this
      by_cases hp2 : p2 ≤ 0
      · linarith
      by_cases hp2b : 1 ≤ p2
      · rw [quantile_high levels p2 hT hp2 hp2b, hmaxeq, unbot_coe] at h2
        rw [← Option.some_inj.mp h1, ← Option.some_inj.mp h2]
        apply walk_upper _ vmax
        · intro y hy
          exact absurd hy (by simp)
        · exact hv0
        · exact hallvals
      · obtain ⟨v0', w0', rest', hcons', heq2⟩ :=
          quantile_interior levels p2 hT hp2 hp2b L x hL hx
        rw [heq2] at h2
        rw [← Option.some_inj.mp h1, ← Option.some_inj.mp h2]
        have hv0eq : v0' = v0 := by
          have := hcons.symm.trans hcons'
          exact (Prod.mk.injEq .. ▸ (List.cons.injEq .. ▸ this).1 : _ ∧ _).1.symm
        rw [hv0eq]
        refine walk_mono _ _ ?_ _ 0 none v0 ?_ ?_
        · apply mul_le_mul_of_nonneg_right hp
          linarith
        · have hs := sortedPairs_sorted levels
          rw [hcons, List.map_cons] at hs
          rw [hcons, List.map_cons, List.sorted_cons]
          refine ⟨?_, hs⟩
          intro b hb
          rcases List.mem_cons.mp hb with rfl | hb2
          · exact le_refl _
          · exact (List.sorted_cons.mp hs).1 b hb2
        · intro y hy
          exact absurd hy (by simp)

/-- Range bound of `quantile`, over any sketch state whose retained values
all lie in `[lo, hi]`. -/
theorem quantile_bounds (levels : List (List ℚ)) (p q lo hi : ℚ)
    (h : quantile levels p = some q)
    (hret : retained levels (fun v => lo ≤ v ∧ v ≤ hi)) : lo ≤ q ∧ q ≤ hi := by
  by_cases hT : mass levels = 0
  · rw [quantile, if_pos hT] at h
    exact absurd h (by simp)
  obtain ⟨L, hL, x, hx⟩ := mass_ne_zero_witness levels hT
  by_cases hp0 : p ≤ 0
  · rw [quantile_low levels p hT hp0] at h
    obtain ⟨vmin, hmineq, ⟨L', hL', hv⟩, _⟩ := minRep_spec levels L x hL hx
    rw [hmineq, untop_coe] at h
    rw [← Option.some_inj.mp h]
    exact hret L' hL' vmin hv
  by_cases hp1 : 1 ≤ p
  · rw [quantile_high levels p hT hp0 hp1] at h
    obtain ⟨vmax, hmaxeq, ⟨L', hL', hv⟩, _⟩ := maxRep_spec levels L x hL hx
    rw [hmaxeq, unbot_coe] at h
    rw [← Option.some_inj.mp h]
    exact hret L' hL' vmax hv
  · obtain ⟨v0, w0, rest, hcons, heq⟩ := quantile_interior levels p hT hp0 hp1 L x hL hx
    rw [heq] at h
    rw [← Option.some_inj.mp h]
    have hvals : ∀ vw ∈ sortedPairs levels, lo ≤ vw.1 ∧ vw.1 ≤ hi := by
      intro vw hvw
      obtain ⟨L', hL', hvw'⟩ := sortedPairs_values levels vw hvw
      exact hret L' hL' vw.1 hvw'
    have hv0 : lo ≤ v0 ∧ v0 ≤ hi := by
      have : (v0, w0) ∈ sortedPairs levels := by rw [hcons]; simp
      exact hvals _ this
    constructor
    · apply walk_lower
      · intro y hy
        exact absurd hy (by simp)
      · exact hv0.1
      · exact fun vw hvw => (hvals vw hvw).1
    · apply walk_upper
      · intro y hy
        exact absurd hy (by simp)
      · exact hv0.2
      · exact fun vw hvw => (hvals vw hvw).2

/-- C5 (quantile monotonicity and bounds): for every sketch built by
streaming any finite stream of (finite) numbers through `add`, under every
random compaction outcome, `quantile` is non-decreasing in `p`, and for
every `p ∈ [0, 1]` the returned value lies between the stream's minimum
and maximum. -/
theorem kll_quantile_monotone_bounded (rand : ℕ → Bool) (k : ℤ) (c : ℚ)
    (eager : Bool) (stream : List ℚ) :
    (∀ p1 p2 q1 q2 : ℚ, p1 ≤ p2 →
      quantile (build rand k c eager stream).1 p1 = some q1 →
      quantile (build rand k c eager stream).1 p2 = some q2 → q1 ≤ q2) ∧
    (∀ p q lo hi : ℚ, 0 ≤ p → p ≤ 1 →
      quantile (build rand k c eager stream).1 p = some q →
      lo ∈ stream → (∀ v ∈ stream, lo ≤ v) →
      hi ∈ stream → (∀ v ∈ stream, v ≤ hi) →
      lo ≤ q ∧ q ≤ hi) := by
  constructor
  · intro p1 p2 q1 q2 hp h1 h2
    exact quantile_mono _ p1 p2 q1 q2 hp h1 h2
  · intro p q lo hi hp0 hp1 h hlo hloall hhi hhiall
    apply quantile_bounds _ p q lo hi h
    have hretained := build_retained rand k c eager stream
    intro L hL v hv
    have hvs := hretained L hL v hv
    exact ⟨hloall v hvs, hhiall v hvs⟩

theorem build_three :
    build (fun _ => false) 8 (2/3) false [1, 2, 3] = ([[1, 2, 3]], 0) := by
  rw [build]
  simp only [List.foldl_cons, List.foldl_nil]
  rw [show add (fun _ => false) 8 (2/3) false 1 ([], 0) = ([[(1 : ℚ)]], 0) by
    rw [add]
    simp only [ensureLevel, Bool.false_eq_true, if_false]
    norm_num
    rw [maybeCompact_eq _ _ _ _ _ _ _ (by omega),
      ensureLevel_zero_of_ne [[(1 : ℚ)]] (by simp),
      if_neg (by rw [cap0_single]; norm_num)]]
  rw [add_within_cap _ _ _ _ _ (by norm_num), add_within_cap _ _ _ _ _ (by norm_num)]
  norm_num

theorem quantile_three : quantile [[(1 : ℚ), 2, 3]] 0 = some 1 := by
  rw [quantile_low _ _ (by decide) (le_refl 0)]
  rw [show minRep [[(1 : ℚ), 2, 3]] = ((1 : ℚ) : WithTop ℚ) by
    rw [minRep]
    simp only [List.flatMap_cons, List.flatMap_nil, id, List.append_nil,
      List.foldl_cons, List.foldl_nil, minStep]
    norm_num]
  rfl

/-- Witness for C5 at a concrete input. -/
theorem kll_quantile_monotone_bounded_witness :
    ∃ q : ℚ, quantile (build (fun _ => false) 8 (2/3) false [1, 2, 3]).1 0 = some q ∧
      q ≤ q ∧ 1 ≤ q ∧ q ≤ 3 := by
  have hq : quantile (build (fun _ => false) 8 (2/3) false [1, 2, 3]).1 0 = some 1 := by
    rw [build_three]
    exact quantile_three
  have hmono := (kll_quantile_monotone_bounded (fun _ => false) 8 (2/3) false
    [1, 2, 3]).1 0 0 1 1 (le_refl 0) hq hq
  have hbound := (kll_quantile_monotone_bounded (fun _ => false) 8 (2/3) false
    [1, 2, 3]).2 0 1 1 3 (le_refl 0) (by norm_num) hq (by simp)
    (by intro v hv; fin_cases hv <;> norm_num) (by simp)
    (by intro v hv; fin_cases hv <;> norm_num)
  exact ⟨1, hq, hmono, hbound⟩

end KLL

/-! ## FIR coefficient designers (`src/lib/filters/fir-coeffs.ts`)

Real-valued model; `Math.sin`/`Math.cos` are `Real.sin`/`Real.cos`. -/

namespace FIR

/-- The unnormalized windowed-sinc tap `ret[n]` computed inside
`calcImpulseResponse` (before DC normalization): the limiting value `ω` at
the center tap, otherwise `sin(ωk)/k` with the Hamming window applied. -/
noncomputable def rawTap (Fs Fc : ℝ) (order n : ℕ) : ℝ :=
  let omega := 2 * Real.pi * Fc / Fs
  let k := (n : ℝ) - (order : ℝ) / 2
  if k = 0 then omega
  else Real.sin (omega * k) / k * (0.54 - 0.46 * Real.cos (2 * Real.pi * n / order))

/-- The accumulated `dc` value of `calcImpulseResponse`: the sum of the
unnormalized taps. -/
noncomputable def dcSum (Fs Fc : ℝ) (order : ℕ) : ℝ :=
  ((List.range (order + 1)).map (rawTap Fs Fc order)).sum

/-- Embeds `calcImpulseResponse`: `order + 1` windowed-sinc taps, each
divided by the DC sum. -/
noncomputable def calcImpulseResponse (Fs Fc : ℝ) (order : ℕ) : List ℝ :=
  ((List.range (order + 1)).map (rawTap Fs Fc order)).map
    (fun t => t / dcSum Fs Fc order)

/-- Embeds `invert`: negate all taps, then `out[(out.length - 1) / 2] += 1`.
In JavaScript the index `(out.length - 1) / 2` is fractional when the tap
count is even; the write then creates a non-index property and leaves every
array element unchanged, which the `if` models. -/
noncomputable def invert (h : List ℝ) : List ℝ :=
  let out := h.map (fun t => -t)
  if (out.length - 1) % 2 = 0 then
    out.set ((out.length - 1) / 2) (out.getD ((out.length - 1) / 2) 0 + 1)
  else out

/-- Embeds `FIRCoeffs.lowpass`. -/
noncomputable def lowpass (Fs Fc : ℝ) (order : ℕ) : List ℝ :=
  calcImpulseResponse Fs Fc order

/-- Embeds `FIRCoeffs.highpass`. -/
noncomputable def highpass (Fs Fc : ℝ) (order : ℕ) : List ℝ :=
  invert (calcImpulseResponse Fs Fc order)

theorem sum_map_div (l : List ℝ) (d : ℝ) :
    (l.map (fun t => t / d)).sum = l.sum / d := by
  induction l with
  | nil => simp
  | cons x xs ih => simp [ih, add_div]

theorem sum_map_neg (l : List ℝ) : (l.map (fun t => -t)).sum = -l.sum := by
  induction l with
  | nil => simp
  | cons x xs ih => simp [ih]; ring

theorem sum_set_add (l : List ℝ) (i : ℕ) (x : ℝ) (hi : i < l.length) :
    (l.set i (l.getD i 0 + x)).sum = l.sum + x := by
  induction l generalizing i with
  | nil => simp at hi
  | cons y ys ih =>
    cases i with
    | zero => simp [List.getD_cons_zero]; ring
    | succ n =>
      simp only [List.set_cons_succ, List.getD_cons_succ, List.sum_cons]
      rw [ih n (by simpa using hi)]
      ring

theorem sum_lowpass (Fs Fc : ℝ) (order : ℕ) (hdc : dcSum Fs Fc order ≠ 0) :
    (lowpass Fs Fc order).sum = 1 := by
  rw [lowpass, calcImpulseResponse, sum_map_div, ← dcSum, div_self hdc]

/-- C4 (amended): for an even order (so that the spectral-inversion center
index `(length-1)/2` is integral) and a nonzero unnormalized DC sum, the
lowpass taps sum to exactly 1 and the highpass taps to exactly 0. -/
theorem fir_dc_gains (Fs Fc : ℝ) (order : ℕ) (hFc : 0 < Fc) (hFs : Fc < Fs / 2)
    (hord : 1 ≤ order) (heven : order % 2 = 0) (hdc : dcSum Fs Fc order ≠ 0) :
    (lowpass Fs Fc order).sum = 1 ∧ (highpass Fs Fc order).sum = 0 := by
  have hlp := sum_lowpass Fs Fc order hdc
  refine ⟨hlp, ?_⟩
  rw [highpass, invert]
  have hlen : (calcImpulseResponse Fs Fc order).length = order + 1 := by
    rw [calcImpulseResponse]
    simp
  simp only [List.length_map, hlen]
  rw [if_pos (by omega)]
  rw [sum_set_add _ _ _ (by simp [hlen]; omega), sum_map_neg, ← lowpass, hlp]
  ring

theorem range_two : List.range 2 = [0, 1] := by decide

theorem sin_pi_div_four_pos : 0 < Real.sin (Real.pi / 4) :=
  Real.sin_pos_of_pos_of_lt_pi (by positivity) (by linarith [Real.pi_pos])

theorem rawTap_four_one_one_zero :
    rawTap 4 1 1 0 = Real.sin (Real.pi / 4) * 2 * (27 / 50 - 23 / 50) := by
  simp only [rawTap]
  rw [if_neg (by norm_num : ¬ ((0 : ℕ) : ℝ) - (1 : ℕ) / 2 = 0)]
  rw [show 2 * Real.pi * 1 / 4 * (((0 : ℕ) : ℝ) - ((1 : ℕ) : ℝ) / 2) = -(Real.pi / 4) by
    push_cast; ring]
  rw [show 2 * Real.pi * ((0 : ℕ) : ℝ) / ((1 : ℕ) : ℝ) = 0 by push_cast; ring]
  rw [Real.sin_neg, Real.cos_zero]
  push_cast
  ring

theorem rawTap_four_one_one_one :
    rawTap 4 1 1 1 = Real.sin (Real.pi / 4) * 2 * (27 / 50 - 23 / 50) := by
  simp only [rawTap]
  rw [if_neg (by norm_num : ¬ ((1 : ℕ) : ℝ) - (1 : ℕ) / 2 = 0)]
  rw [show 2 * Real.pi * 1 / 4 * (((1 : ℕ) : ℝ) - ((1 : ℕ) : ℝ) / 2) = Real.pi / 4 by
    push_cast; ring]
  rw [show 2 * Real.pi * ((1 : ℕ) : ℝ) / ((1 : ℕ) : ℝ) = 2 * Real.pi by push_cast; ring]
  rw [Real.cos_two_pi]
  push_cast
  ring

theorem dcSum_four_one_one_pos : 0 < dcSum 4 1 1 := by
  rw [dcSum, show (1 : ℕ) + 1 = 2 from rfl, range_two]
  simp only [List.map_cons, List.map_nil, List.sum_cons, List.sum_nil]
  rw [rawTap_four_one_one_zero, rawTap_four_one_one_one]
  have := sin_pi_div_four_pos
  nlinarith

/-- C4 counterexample: at `Fs = 4`, `Fc = 1`, `order = 1` — parameters
inside the claimed range `0 < Fc < Fs/2`, `order ≥ 1` — the highpass taps
sum to `-1`, not 0: the odd order makes the spectral-inversion center index
`(length-1)/2` fractional, so the `+1` lands off the array and only the
negation survives. -/
theorem fir_highpass_counterexample :
    (0 : ℝ) < 1 ∧ (1 : ℝ) < 4 / 2 ∧ (1 : ℕ) ≤ 1 ∧ (highpass 4 1 1).sum = -1 := by
  refine ⟨by norm_num, by norm_num, le_refl 1, ?_⟩
  have hdc : dcSum 4 1 1 ≠ 0 := ne_of_gt dcSum_four_one_one_pos
  rw [highpass, invert]
  have hlen : (calcImpulseResponse 4 1 1).length = 2 := by
    rw [calcImpulseResponse]
    simp
  simp only [List.length_map, hlen]
  rw [if_neg (by norm_num)]
  rw [sum_map_neg, ← lowpass, sum_lowpass 4 1 1 hdc]

theorem rawTap_four_one_two_zero : rawTap 4 1 2 0 = 27 / 50 - 23 / 50 := by
  simp only [rawTap]
  rw [if_neg (by norm_num : ¬ ((0 : ℕ) : ℝ) - (2 : ℕ) / 2 = 0)]
  rw [show 2 * Real.pi * 1 / 4 * (((0 : ℕ) : ℝ) - ((2 : ℕ) : ℝ) / 2) = -(Real.pi / 2) by
    push_cast; ring]
  rw [show 2 * Real.pi * ((0 : ℕ) : ℝ) / ((2 : ℕ) : ℝ) = 0 by push_cast; ring]
  rw [Real.sin_neg, Real.sin_pi_div_two, Real.cos_zero]
  push_cast
  ring

theorem rawTap_four_one_two_one : rawTap 4 1 2 1 = 2 * Real.pi * 1 / 4 := by
  simp only [rawTap]
  rw [if_pos (by norm_num : ((1 : ℕ) : ℝ) - (2 : ℕ) / 2 = 0)]

theorem rawTap_four_one_two_two : rawTap 4 1 2 2 = 27 / 50 - 23 / 50 := by
  simp only [rawTap]
  rw [if_neg (by norm_num : ¬ ((2 : ℕ) : ℝ) - (2 : ℕ) / 2 = 0)]
  rw [show 2 * Real.pi * 1 / 4 * (((2 : ℕ) : ℝ) - ((2 : ℕ) : ℝ) / 2) = Real.pi / 2 by
    push_cast; ring]
  rw [show 2 * Real.pi * ((2 : ℕ) : ℝ) / ((2 : ℕ) : ℝ) = 2 * Real.pi by push_cast; ring]
  rw [Real.sin_pi_div_two, Real.cos_two_pi]
  push_cast
  ring

theorem dcSum_four_one_two_pos : 0 < dcSum 4 1 2 := by
  rw [dcSum, show (2 : ℕ) + 1 = 3 from rfl, show List.range 3 = [0, 1, 2] by decide]
  simp only [List.map_cons, List.map_nil, List.sum_cons, List.sum_nil]
  rw [rawTap_four_one_two_zero, rawTap_four_one_two_one, rawTap_four_one_two_two]
  have := Real.pi_pos
  nlinarith

/-- Witness for (amended) C4 at a concrete input. -/
theorem fir_dc_gains_witness :
    (lowpass 4 1 2).sum = 1 ∧ (highpass 4 1 2).sum = 0 :=
  fir_dc_gains 4 1 2 (by norm_num) (by norm_num) (by norm_num) (by norm_num)
    (ne_of_gt dcSum_four_one_two_pos)

end FIR

/-! ## Linear resampling (`src/lib/resampling/linear.ts`, current version)

A sample is an (epoch-millisecond timestamp, value) pair of exact numbers;
`new Date(t)` / `getTime()` round-trips are the identity on the numeric
time in this model. -/

namespace Linear

structure Sample where
  timestamp : ℚ
  value : ℚ
deriving DecidableEq, Inhabited

/-- Embeds the `while (rightTime < targetTime && j < length - 2) j++` sweep;
`fuel` bounds the iterations (`input.length` suffices). -/
def advance (input : List Sample) (targetTime : ℚ) : ℕ → ℕ → ℕ
  | 0, j => j
  | fuel + 1, j =>
    if (input.getD (j + 1) default).timestamp < targetTime ∧ j < input.length - 2 then
      advance input targetTime fuel (j + 1)
    else j

/-- Embeds the `for (let i = 1; i < n - 1; ...)` body producing the interior
output samples; carries the two-pointer index `j` and the running
`targetTime` exactly as the source does. -/
def middleLoop (input : List Sample) (n : ℕ) (step : ℚ) :
    ℕ → ℕ → ℕ → ℚ → List Sample
  | 0, _, _, _ => []
  | fuel + 1, i, j, targetTime =>
    if i < n - 1 then
      let j2 := advance input targetTime input.length j
      let left := input.getD j2 default
      let right := input.getD (j2 + 1) default
      let pt : Sample :=
        if targetTime ≤ left.timestamp then ⟨left.timestamp, left.value⟩
        else if right.timestamp ≤ targetTime then ⟨right.timestamp, right.value⟩
        else
          let denom := right.timestamp - left.timestamp
          let ratio := if denom = 0 then 0 else (targetTime - left.timestamp) / denom
          ⟨targetTime, left.value + (right.value - left.value) * ratio⟩
      pt :: middleLoop input n step fuel (i + 1) j2 (targetTime + step)
    else []

/-- Embeds `resample(input, n)` (the current two-pointer version). -/
def resample (input : List Sample) (n : ℕ) : List Sample :=
  let length := input.length
  if length = 0 ∨ n = 0 then []
  else if length = n then input
  else if n = 1 then [input.getD ((length - 1) / 2) default]
  else
    let startTime := (input.getD 0 default).timestamp
    let endTime := (input.getD (length - 1) default).timestamp
    let totalDuration := endTime - startTime
    if totalDuration = 0 then
      List.replicate n ⟨(input.getD 0 default).timestamp, (input.getD 0 default).value⟩
    else
      let step := totalDuration / ((n : ℚ) - 1)
      (⟨(input.getD 0 default).timestamp, (input.getD 0 default).value⟩ :
          Sample) ::
        (middleLoop input n step n 1 0 (startTime + step) ++
          [⟨(input.getD (length - 1) default).timestamp,
            (input.getD (length - 1) default).value⟩])

theorem getD_last_cons_append (a b : Sample) (mid : List Sample) :
    (a :: (mid ++ [b])).getD ((a :: (mid ++ [b])).length - 1) default = b := by
  simp only [List.length_cons, List.length_append, List.length_singleton,
    Nat.add_sub_cancel]
  rw [List.getD_eq_getElem?_getD, List.getElem?_cons]
  rw [if_neg (by omega)]
  rw [List.getElem?_append_right (by omega)]
  rw [show mid.length + (([] : List Sample).length + 1) - 1 - mid.length = 0 by
    simp]
  rfl

/-- C7 counterexample: a two-sample series whose timestamps coincide but
whose values differ (an input the claim quantifies over), resampled to
n = 3: the degenerate zero-duration branch replicates the *first* value, so
the last output sample carries value 1, not the input's last value 2. -/
theorem linear_endpoint_counterexample :
    resample [⟨0, 1⟩, ⟨0, 2⟩] 3
        = [⟨0, 1⟩, ⟨0, 1⟩, ⟨0, 1⟩] ∧
      (resample [⟨0, 1⟩, ⟨0, 2⟩] 3).getD 2 default ≠ (⟨0, 2⟩ : Sample) := by
  have heval : resample [(⟨0, 1⟩ : Sample), ⟨0, 2⟩] 3 = [⟨0, 1⟩, ⟨0, 1⟩, ⟨0, 1⟩] := by
    rw [resample]
    simp only [List.length_cons, List.length_nil, List.getD_cons_zero,
      List.getD_cons_succ]
    norm_num
    rfl
  refine ⟨heval, ?_⟩
  rw [heval]
  intro h
  simp only [List.getD_cons_succ, List.getD_cons_zero, Sample.mk.injEq] at h
  exact absurd h.2 (by norm_num)

/-- C7 (amended): for a non-empty input and `n ≥ 2`, the first output
sample always carries exactly the input's first timestamp and value; the
last output sample carries exactly the input's last timestamp and value
whenever `n` equals the input length or the last input timestamp differs
from the first.  (When all bracketing timestamps coincide, the degenerate
branch replicates the first sample instead.) -/
theorem linear_resample_endpoints (input : List Sample) (n : ℕ)
    (hne : input ≠ []) (hn : 2 ≤ n) :
    (resample input n).getD 0 default = input.getD 0 default ∧
    (input.length = n ∨
        (input.getD (input.length - 1) default).timestamp
          ≠ (input.getD 0 default).timestamp →
      (resample input n).getD ((resample input n).length - 1) default
        = input.getD (input.length - 1) default) := by
  have hlen : input.length ≠ 0 := fun h => hne (List.length_eq_zero.mp h)
  rw [resample]
  simp only [if_neg (by omega : ¬ (input.length = 0 ∨ n = 0))]
  by_cases heq : input.length = n
  · rw [if_pos heq]
    exact ⟨rfl, fun _ => by rw [heq]⟩
  · rw [if_neg heq, if_neg (by omega : ¬ n = 1)]
    by_cases hdur : (input.getD (input.length - 1) default).timestamp
        - (input.getD 0 default).timestamp = 0
    · rw [if_pos hdur]
      constructor
      · rw [List.getD_eq_getElem?_getD, List.getElem?_replicate, if_pos (by omega)]
        rfl
      · intro hcase
        rcases hcase with hcase | hcase
        · exact absurd hcase heq
        · exact absurd (by linarith [sub_eq_zero.mp hdur]) hcase
    · rw [if_neg hdur]
      constructor
      · rfl
      · intro _
        exact getD_last_cons_append _ _ _

/-- Witness for (amended) C7 at a concrete input. -/
theorem linear_resample_endpoints_witness :
    (resample [⟨0, 1⟩, ⟨10, 5⟩] 3).getD 0 default = (⟨0, 1⟩ : Sample) ∧
    (resample [⟨0, 1⟩, ⟨10, 5⟩] 3).getD
        ((resample [⟨0, 1⟩, ⟨10, 5⟩] 3).length - 1) default = (⟨10, 5⟩ : Sample) := by
  have h := linear_resample_endpoints [⟨0, 1⟩, ⟨10, 5⟩] 3 (by decide) (by norm_num)
  exact ⟨h.1, h.2 (Or.inr (by decide))⟩

end Linear

namespace IIR

/-- Parameters consumed by the audio-EQ-cookbook biquad designers.
`Q` and `BW` are optional numbers; JavaScript truthiness makes both
`undefined` and `0` count as "absent", which we model as `getD 0 = 0`. -/
structure FilterParams where
  Fc : ℝ
  Fs : ℝ
  Q : Option ℝ
  BW : Option ℝ
  preGain : Bool

/-- Coefficient object produced by the designers (`a0` and `k` start unset). -/
structure FilterCoeffs where
  a : List ℝ
  b : List ℝ
  z : List ℝ
  a0 : Option ℝ
  k : Option ℝ

def initCoeffs : FilterCoeffs := ⟨[], [], [0, 0], none, none⟩

/-- `preCalc`: throws when neither `Q` nor `BW` is truthy, else fills in the
denominator coefficients and returns `(coeffs, alpha, cw, a0)`. -/
noncomputable def preCalc (params : FilterParams) (coeffs : FilterCoeffs) :
    Except String (FilterCoeffs × ℝ × ℝ × ℝ) :=
  if params.Q.getD 0 = 0 ∧ params.BW.getD 0 = 0 then
    Except.error "Either Q or BW parameter is required"
  else
    let w := 2 * Real.pi * params.Fc / params.Fs
    let alpha :=
      if params.BW.getD 0 = 0 then Real.sin w / (2 * params.Q.getD 0)
      else Real.sin w * Real.sinh (Real.log 2 / 2 * params.BW.getD 0 * w / Real.sin w)
    let cw := Real.cos w
    let a0 := 1 + alpha
    Except.ok
      (⟨coeffs.a ++ [(-2 * cw) / a0, (1 - alpha) / a0], coeffs.b, coeffs.z,
        some a0, some 1⟩, alpha, cw, a0)

/-- Models the statement `if (params.BW) delete params.BW` that `lowpass`
and `highpass` run on their (mutable) parameter object before `preCalc`. -/
noncomputable def deleteBW (params : FilterParams) : FilterParams :=
  if params.BW.getD 0 = 0 then params
  else ⟨params.Fc, params.Fs, params.Q, none, params.preGain⟩

/-- `IIRCoeffs.lowpass` (cookbook): drops a truthy `BW`, then `preCalc`. -/
noncomputable def lowpass (params0 : FilterParams) : Except String FilterCoeffs :=
  let params := deleteBW params0
  match preCalc params initCoeffs with
  | Except.error e => Except.error e
  | Except.ok (coeffs, _alpha, cw, a0) =>
    let k : ℝ := if params.preGain then (1 - cw) * 0.5 else 1
    let base : ℝ := if params.preGain then 1 / a0 else (1 - cw) / (2 * a0)
    Except.ok ⟨coeffs.a, coeffs.b ++ [base, 2 * base, base], coeffs.z, coeffs.a0, some k⟩

/-- `IIRCoeffs.highpass` (cookbook): drops a truthy `BW`, then `preCalc`. -/
noncomputable def highpass (params0 : FilterParams) : Except String FilterCoeffs :=
  let params := deleteBW params0
  match preCalc params initCoeffs with
  | Except.error e => Except.error e
  | Except.ok (coeffs, _alpha, cw, a0) =>
    let k : ℝ := if params.preGain then (1 + cw) * 0.5 else 1
    let base : ℝ := if params.preGain then 1 / a0 else (1 + cw) / (2 * a0)
    Except.ok ⟨coeffs.a, coeffs.b ++ [base, -2 * base, base], coeffs.z, coeffs.a0, some k⟩

/-- `IIRCoeffs.allpass`: `preCalc` on the parameters as given. -/
noncomputable def allpass (params : FilterParams) : Except String FilterCoeffs :=
  match preCalc params initCoeffs with
  | Except.error e => Except.error e
  | Except.ok (coeffs, alpha, cw, a0) =>
    Except.ok ⟨coeffs.a,
      coeffs.b ++ [(1 - alpha) / a0, (-2 * cw) / a0, (1 + alpha) / a0],
      coeffs.z, coeffs.a0, some 1⟩

/-- `IIRCoeffs.bandpass`: `preCalc` on the parameters as given. -/
noncomputable def bandpass (params : FilterParams) : Except String FilterCoeffs :=
  match preCalc params initCoeffs with
  | Except.error e => Except.error e
  | Except.ok (coeffs, alpha, _cw, a0) =>
    let base := alpha / a0
    Except.ok ⟨coeffs.a, coeffs.b ++ [base, 0, -base], coeffs.z, coeffs.a0, some 1⟩

/-- `IIRCoeffs.bandstop`: `preCalc` on the parameters as given. -/
noncomputable def bandstop (params : FilterParams) : Except String FilterCoeffs :=
  match preCalc params initCoeffs with
  | Except.error e => Except.error e
  | Except.ok (coeffs, _alpha, cw, a0) =>
    let base := 1 / a0
    Except.ok ⟨coeffs.a, coeffs.b ++ [base, (-2 * cw) / a0, base],
      coeffs.z, coeffs.a0, some 1⟩

lemma preCalc_error (params : FilterParams) (c : FilterCoeffs)
    (hq : params.Q.getD 0 = 0) (hb : params.BW.getD 0 = 0) :
    preCalc params c = Except.error "Either Q or BW parameter is required" := by
  simp only [preCalc]
  rw [if_pos ⟨hq, hb⟩]

lemma preCalc_ok (params : FilterParams) (c : FilterCoeffs)
    (h : ¬ (params.Q.getD 0 = 0 ∧ params.BW.getD 0 = 0)) :
    ∃ r, preCalc params c = Except.ok r := by
  simp only [preCalc]
  rw [if_neg h]
  exact ⟨_, rfl⟩

lemma deleteBW_Q (params : FilterParams) : (deleteBW params).Q = params.Q := by
  unfold deleteBW
  split <;> rfl

lemma deleteBW_BW (params : FilterParams) : (deleteBW params).BW.getD 0 = 0 := by
  unfold deleteBW
  split
  · assumption
  · rfl

lemma lowpass_ok (params : FilterParams) (h : params.Q.getD 0 ≠ 0) :
    ∃ c, lowpass params = Except.ok c := by
  obtain ⟨⟨c, alpha, cw, a0⟩, hr⟩ := preCalc_ok (deleteBW params) initCoeffs
    (by rw [deleteBW_Q]; exact fun hc => h hc.1)
  simp only [lowpass]
  rw [hr]
  exact ⟨_, rfl⟩

lemma highpass_ok (params : FilterParams) (h : params.Q.getD 0 ≠ 0) :
    ∃ c, highpass params = Except.ok c := by
  obtain ⟨⟨c, alpha, cw, a0⟩, hr⟩ := preCalc_ok (deleteBW params) initCoeffs
    (by rw [deleteBW_Q]; exact fun hc => h hc.1)
  simp only [highpass]
  rw [hr]
  exact ⟨_, rfl⟩

lemma lowpass_error (params : FilterParams) (h : params.Q.getD 0 = 0) :
    lowpass params = Except.error "Either Q or BW parameter is required" := by
  have hpre := preCalc_error (deleteBW params) initCoeffs
    (by rw [deleteBW_Q]; exact h) (deleteBW_BW params)
  simp only [lowpass]
  rw [hpre]

lemma highpass_error (params : FilterParams) (h : params.Q.getD 0 = 0) :
    highpass params = Except.error "Either Q or BW parameter is required" := by
  have hpre := preCalc_error (deleteBW params) initCoeffs
    (by rw [deleteBW_Q]; exact h) (deleteBW_BW params)
  simp only [highpass]
  rw [hpre]

lemma allpass_ok (params : FilterParams)
    (h : ¬ (params.Q.getD 0 = 0 ∧ params.BW.getD 0 = 0)) :
    ∃ c, allpass params = Except.ok c := by
  obtain ⟨⟨c, alpha, cw, a0⟩, hr⟩ := preCalc_ok params initCoeffs h
  simp only [allpass]
  rw [hr]
  exact ⟨_, rfl⟩

lemma bandpass_ok (params : FilterParams)
    (h : ¬ (params.Q.getD 0 = 0 ∧ params.BW.getD 0 = 0)) :
    ∃ c, bandpass params = Except.ok c := by
  obtain ⟨⟨c, alpha, cw, a0⟩, hr⟩ := preCalc_ok params initCoeffs h
  simp only [bandpass]
  rw [hr]
  exact ⟨_, rfl⟩

lemma bandstop_ok (params : FilterParams)
    (h : ¬ (params.Q.getD 0 = 0 ∧ params.BW.getD 0 = 0)) :
    ∃ c, bandstop params = Except.ok c := by
  obtain ⟨⟨c, alpha, cw, a0⟩, hr⟩ := preCalc_ok params initCoeffs h
  simp only [bandstop]
  rw [hr]
  exact ⟨_, rfl⟩

lemma allpass_error (params : FilterParams)
    (hq : params.Q.getD 0 = 0) (hb : params.BW.getD 0 = 0) :
    allpass params = Except.error "Either Q or BW parameter is required" := by
  simp only [allpass]
  rw [preCalc_error params initCoeffs hq hb]

lemma bandpass_error (params : FilterParams)
    (hq : params.Q.getD 0 = 0) (hb : params.BW.getD 0 = 0) :
    bandpass params = Except.error "Either Q or BW parameter is required" := by
  simp only [bandpass]
  rw [preCalc_error params initCoeffs hq hb]

lemma bandstop_error (params : FilterParams)
    (hq : params.Q.getD 0 = 0) (hb : params.BW.getD 0 = 0) :
    bandstop params = Except.error "Either Q or BW parameter is required" := by
  simp only [bandstop]
  rw [preCalc_error params initCoeffs hq hb]

/-- C9 counterexample: calling `IIRCoeffs.lowpass` with a truthy `BW` and no
`Q` — a parameter set the claim says must succeed — still throws
"Either Q or BW parameter is required", because the designer executes
`if (params.BW) delete params.BW` before `preCalc` looks for `Q` or `BW`. -/
theorem iir_lowpass_bw_only_counterexample :
    (some (1 : ℝ)).getD 0 ≠ 0 ∧
    lowpass ⟨1000, 48000, none, some 1, false⟩ =
      Except.error "Either Q or BW parameter is required" := by
  constructor
  · norm_num
  · exact lowpass_error _ rfl

/-- C9 (amended): every cookbook single-stage designer throws
"Either Q or BW parameter is required" when neither `Q` nor `BW` is truthy;
`bandpass`, `bandstop` and `allpass` return a coefficient object whenever at
least one of `Q`, `BW` is truthy; but `lowpass` and `highpass` first delete a
truthy `BW`, so they succeed exactly when `Q` itself is truthy and throw when
only `BW` was supplied. -/
theorem iir_precalc_errors (params : FilterParams) :
    (params.Q.getD 0 = 0 ∧ params.BW.getD 0 = 0 →
      lowpass params = Except.error "Either Q or BW parameter is required" ∧
      highpass params = Except.error "Either Q or BW parameter is required" ∧
      bandpass params = Except.error "Either Q or BW parameter is required" ∧
      bandstop params = Except.error "Either Q or BW parameter is required" ∧
      allpass params = Except.error "Either Q or BW parameter is required") ∧
    (params.Q.getD 0 ≠ 0 ∨ params.BW.getD 0 ≠ 0 →
      (∃ c, bandpass params = Except.ok c) ∧
      (∃ c, bandstop params = Except.ok c) ∧
      (∃ c, allpass params = Except.ok c)) ∧
    (params.Q.getD 0 ≠ 0 →
      (∃ c, lowpass params = Except.ok c) ∧
      (∃ c, highpass params = Except.ok c)) ∧
    (params.Q.getD 0 = 0 ∧ params.BW.getD 0 ≠ 0 →
      lowpass params = Except.error "Either Q or BW parameter is required" ∧
      highpass params = Except.error "Either Q or BW parameter is required") := by
  refine ⟨fun hqb => ?_, fun hor => ?_, fun hq => ?_, fun hqb => ?_⟩
  · exact ⟨lowpass_error params hqb.1, highpass_error params hqb.1,
      bandpass_error params hqb.1 hqb.2, bandstop_error params hqb.1 hqb.2,
      allpass_error params hqb.1 hqb.2⟩
  · have h : ¬ (params.Q.getD 0 = 0 ∧ params.BW.getD 0 = 0) := by tauto
    exact ⟨bandpass_ok params h, bandstop_ok params h, allpass_ok params h⟩
  · exact ⟨lowpass_ok params hq, highpass_ok params hq⟩
  · exact ⟨lowpass_error params hqb.1, highpass_error params hqb.1⟩

/-- Witness for (amended) C9 at concrete parameter sets: Q-only lowpass
succeeds, BW-only bandpass succeeds, and allpass with neither throws. -/
theorem iir_precalc_errors_witness :
    (∃ c, lowpass ⟨1000, 48000, some 1, none, false⟩ = Except.ok c) ∧
    (∃ c, bandpass ⟨1000, 48000, none, some 1, false⟩ = Except.ok c) ∧
    allpass ⟨1000, 48000, none, none, false⟩ =
      Except.error "Either Q or BW parameter is required" := by
  refine ⟨?_, ?_, ?_⟩
  · exact ((iir_precalc_errors ⟨1000, 48000, some 1, none, false⟩).2.2.1
      (by norm_num)).1
  · exact ((iir_precalc_errors ⟨1000, 48000, none, some 1, false⟩).2.1
      (Or.inr (by norm_num))).1
  · exact ((iir_precalc_errors ⟨1000, 48000, none, none, false⟩).1
      ⟨rfl, rfl⟩).2.2.2.2

end IIR

namespace HRV

/-- Heart-rate measurement carrying a (possibly empty) list of RR intervals
in seconds; iterating an empty list models an absent `rrIntervals` field. -/
structure Measurement where
  timestamp : ℚ
  rrIntervals : List ℚ
deriving Inhabited, DecidableEq

/-- Re-emitted measurement: all fields of the input plus the optional `hrv`. -/
structure MeasurementWithHRV where
  timestamp : ℚ
  rrIntervals : List ℚ
  hrv : Option ℝ
deriving Inhabited

/-- Body of `deriveHRV`'s inner `for (const rr of m.rrIntervals)` loop:
round to ms, range-check, artifact-check against the buffer's last entry,
shift when the window is full, push. -/
def processRR (window : ℕ) (buffer : List ℤ) (rr : ℚ) : List ℤ :=
  let rrMs : ℤ := ⌊rr * 1000 + 1 / 2⌋
  if rrMs < 300 ∨ 2000 < rrMs then buffer
  else
    match buffer.getLast? with
    | none => (if window ≤ buffer.length then buffer.drop 1 else buffer) ++ [rrMs]
    | some prev =>
      if 250 < |rrMs - prev| then buffer
      else (if window ≤ buffer.length then buffer.drop 1 else buffer) ++ [rrMs]

/-- `calculateRMSSD`: `undefined` below two samples, else the square root of
the mean of squared successive differences. -/
noncomputable def calculateRMSSD (rr : List ℤ) : Option ℝ :=
  if rr.length < 2 then none
  else
    let diffsSquared : List ℤ := (rr.tail.zip rr).map (fun p => (p.1 - p.2) ^ 2)
    some (Real.sqrt ((diffsSquared.sum : ℝ) / (diffsSquared.length : ℝ)))

/-- `deriveHRV`: folds each measurement's RR intervals into the buffer and
re-emits the measurement annotated with the RMSSD of the current buffer. -/
noncomputable def deriveHRV (window : ℕ) :
    List Measurement → List ℤ → List MeasurementWithHRV
  | [], _ => []
  | m :: rest, buffer =>
    let buffer2 := m.rrIntervals.foldl (processRR window) buffer
    ⟨m.timestamp, m.rrIntervals, calculateRMSSD buffer2⟩ :: deriveHRV window rest buffer2

/-- Buffer contents after the first measurements of the stream have been
folded in — the "current window" seen by emission number `i`. -/
def bufferAfter (window : ℕ) (buffer : List ℤ) (ms : List Measurement) : List ℤ :=
  ms.foldl (fun b m => m.rrIntervals.foldl (processRR window) b) buffer

/-- Spec-side acceptance predicate: the rounded interval lies in [300, 2000]
ms and differs from the most recently accepted value (the buffer's last
entry, when any) by at most 250 ms. -/
def accepts (buffer : List ℤ) (rr : ℚ) : Prop :=
  300 ≤ ⌊rr * 1000 + 1 / 2⌋ ∧ ⌊rr * 1000 + 1 / 2⌋ ≤ 2000 ∧
    ∀ p ∈ buffer.getLast?, |⌊rr * 1000 + 1 / 2⌋ - p| ≤ 250

/-- The three-measurement scenario 0.80 s, 0.81 s, 0.82 s. -/
def hrvScenario : List Measurement := [⟨0, [4 / 5]⟩, ⟨1, [81 / 100]⟩, ⟨2, [41 / 50]⟩]

lemma processRR_accepts (window : ℕ) (buffer : List ℤ) (rr : ℚ)
    (h : accepts buffer rr) :
    processRR window buffer rr =
      (if window ≤ buffer.length then buffer.drop 1 else buffer) ++
        [⌊rr * 1000 + 1 / 2⌋] := by
  obtain ⟨hlo, hhi, hlast⟩ := h
  simp only [processRR]
  rw [if_neg (by omega : ¬ (⌊rr * 1000 + 1 / 2⌋ < 300 ∨ 2000 < ⌊rr * 1000 + 1 / 2⌋))]
  split
  · rfl
  · rename_i p hl
    rw [if_neg (not_lt.mpr (hlast p hl))]

lemma processRR_rejects (window : ℕ) (buffer : List ℤ) (rr : ℚ)
    (h : ¬ accepts buffer rr) : processRR window buffer rr = buffer := by
  simp only [processRR]
  by_cases h1 : (⌊rr * 1000 + 1 / 2⌋ : ℤ) < 300 ∨ 2000 < ⌊rr * 1000 + 1 / 2⌋
  · rw [if_pos h1]
  · rw [if_neg h1]
    have hb : ¬ ∀ p ∈ buffer.getLast?, |(⌊rr * 1000 + 1 / 2⌋ : ℤ) - p| ≤ 250 := by
      intro hall
      exact h ⟨by omega, by omega, hall⟩
    push_neg at hb
    obtain ⟨p, hp, hgt⟩ := hb
    split
    · rename_i hl
      rw [Option.mem_def, hl] at hp
      cases hp
    · rename_i q hl
      rw [Option.mem_def, hl] at hp
      injection hp with hpq
      subst hpq
      rw [if_pos hgt]

lemma deriveHRV_length (window : ℕ) :
    ∀ (ms : List Measurement) (buffer : List ℤ),
      (deriveHRV window ms buffer).length = ms.length
  | [], _ => rfl
  | m :: rest, buffer => by
    simp only [deriveHRV, List.length_cons]
    rw [deriveHRV_length window rest]

lemma deriveHRV_getD (window : ℕ) :
    ∀ (ms : List Measurement) (buffer : List ℤ) (i : ℕ), i < ms.length →
      (deriveHRV window ms buffer).getD i default =
        ⟨(ms.getD i default).timestamp, (ms.getD i default).rrIntervals,
          calculateRMSSD (bufferAfter window buffer (ms.take (i + 1)))⟩
  | [], _, i, h => absurd h (by simp)
  | m :: rest, buffer, 0, _ => rfl
  | m :: rest, buffer, i + 1, h => by
    simp only [deriveHRV, List.getD_cons_succ, List.take_succ_cons]
    exact deriveHRV_getD window rest (m.rrIntervals.foldl (processRR window) buffer) i
      (by simpa using h)

lemma calculateRMSSD_pos (rr : List ℤ) (h2 : 2 ≤ rr.length)
    (hpos : 0 < ((rr.tail.zip rr).map (fun p => (p.1 - p.2) ^ 2)).sum) :
    ∃ x, calculateRMSSD rr = some x ∧ 0 < x := by
  simp only [calculateRMSSD]
  rw [if_neg (by omega : ¬ rr.length < 2)]
  refine ⟨_, rfl, Real.sqrt_pos.mpr (div_pos ?_ ?_)⟩
  · exact_mod_cast hpos
  · have hlen : ((rr.tail.zip rr).map (fun p => (p.1 - p.2) ^ 2)).length = rr.length - 1 := by
      simp [List.length_zip, List.length_tail]
    rw [hlen]
    exact_mod_cast (by omega : 0 < rr.length - 1)

lemma floor_800 : (⌊(4 / 5 : ℚ) * 1000 + 1 / 2⌋ : ℤ) = 800 := by
  rw [Int.floor_eq_iff]
  norm_num

lemma floor_810 : (⌊(81 / 100 : ℚ) * 1000 + 1 / 2⌋ : ℤ) = 810 := by
  rw [Int.floor_eq_iff]
  norm_num

lemma floor_820 : (⌊(41 / 50 : ℚ) * 1000 + 1 / 2⌋ : ℤ) = 820 := by
  rw [Int.floor_eq_iff]
  norm_num

lemma step_one : processRR 30 [] (4 / 5) = [800] := by
  simp only [processRR]
  rw [floor_800]
  rfl

lemma step_two : processRR 30 [800] (81 / 100) = [800, 810] := by
  simp only [processRR]
  rw [floor_810]
  rfl

lemma step_three : processRR 30 [800, 810] (41 / 50) = [800, 810, 820] := by
  simp only [processRR]
  rw [floor_820]
  rfl

lemma buffer_one : bufferAfter 30 [] (hrvScenario.take 1) = [800] := by
  show processRR 30 [] (4 / 5) = [800]
  exact step_one

lemma buffer_two : bufferAfter 30 [] (hrvScenario.take 2) = [800, 810] := by
  show processRR 30 (processRR 30 [] (4 / 5)) (81 / 100) = [800, 810]
  rw [step_one]
  exact step_two

lemma buffer_three : bufferAfter 30 [] (hrvScenario.take 3) = [800, 810, 820] := by
  show processRR 30 (processRR 30 (processRR 30 [] (4 / 5)) (81 / 100)) (41 / 50) =
    [800, 810, 820]
  rw [step_one, step_two]
  exact step_three

/-- C8: the RR window appends round(rr·1000) exactly when it lies in
[300, 2000] ms and differs from the last accepted value by at most 250 ms
(shifting when the window is full), and otherwise leaves the buffer
unchanged; RMSSD is defined exactly when the window holds at least 2 values;
every measurement is re-emitted exactly once, annotated with the RMSSD of
the current window; and for the stream 0.80 s, 0.81 s, 0.82 s the first
emission has no hrv while the second and third carry a positive hrv. -/
theorem hrv_derivation_contract :
    (∀ (window : ℕ) (buffer : List ℤ) (rr : ℚ),
      (accepts buffer rr →
        processRR window buffer rr =
          (if window ≤ buffer.length then buffer.drop 1 else buffer) ++
            [⌊rr * 1000 + 1 / 2⌋]) ∧
      (¬ accepts buffer rr → processRR window buffer rr = buffer)) ∧
    (∀ rr : List ℤ, (calculateRMSSD rr).isSome = true ↔ 2 ≤ rr.length) ∧
    (∀ (window : ℕ) (buffer : List ℤ) (ms : List Measurement),
      (deriveHRV window ms buffer).length = ms.length ∧
      ∀ i, i < ms.length →
        (deriveHRV window ms buffer).getD i default =
          ⟨(ms.getD i default).timestamp, (ms.getD i default).rrIntervals,
            calculateRMSSD (bufferAfter window buffer (ms.take (i + 1)))⟩) ∧
    (((deriveHRV 30 hrvScenario []).getD 0 default).hrv = none ∧
      ∀ i, 1 ≤ i → i ≤ 2 →
        ∃ x, ((deriveHRV 30 hrvScenario []).getD i default).hrv = some x ∧ 0 < x) := by
  refine ⟨fun window buffer rr =>
      ⟨processRR_accepts window buffer rr, processRR_rejects window buffer rr⟩,
    fun rr => ?_, fun window buffer ms =>
      ⟨deriveHRV_length window ms buffer, fun i h => deriveHRV_getD window ms buffer i h⟩,
    ?_, ?_⟩
  · simp only [calculateRMSSD]
    by_cases h : rr.length < 2
    · rw [if_pos h]
      simp only [Option.isSome_none, Bool.false_eq_true, false_iff]
      omega
    · rw [if_neg h]
      simp only [Option.isSome_some, true_iff]
      omega
  · rw [deriveHRV_getD 30 hrvScenario [] 0 (by simp [hrvScenario])]
    show calculateRMSSD (bufferAfter 30 [] (hrvScenario.take 1)) = none
    rw [buffer_one]
    rfl
  · intro i h1 h2
    interval_cases i
    · rw [deriveHRV_getD 30 hrvScenario [] 1 (by simp [hrvScenario])]
      show ∃ x, calculateRMSSD (bufferAfter 30 [] (hrvScenario.take 2)) = some x ∧ 0 < x
      rw [buffer_two]
      exact calculateRMSSD_pos [800, 810] (by norm_num) (by decide)
    · rw [deriveHRV_getD 30 hrvScenario [] 2 (by simp [hrvScenario])]
      show ∃ x, calculateRMSSD (bufferAfter 30 [] (hrvScenario.take 3)) = some x ∧ 0 < x
      rw [buffer_three]
      exact calculateRMSSD_pos [800, 810, 820] (by norm_num) (by decide)

/-- Witness for C8 at concrete inputs: the first RR of the scenario is
accepted into the empty buffer, and the scenario emissions behave as
claimed. -/
theorem hrv_derivation_contract_witness :
    processRR 30 [] (4 / 5) =
      (if 30 ≤ ([] : List ℤ).length then ([] : List ℤ).drop 1 else []) ++
        [⌊(4 / 5 : ℚ) * 1000 + 1 / 2⌋] ∧
    (((deriveHRV 30 hrvScenario []).getD 0 default).hrv = none ∧
      ∀ i, 1 ≤ i → i ≤ 2 →
        ∃ x, ((deriveHRV 30 hrvScenario []).getD i default).hrv = some x ∧ 0 < x) := by
  constructor
  · exact (hrv_derivation_contract.1 30 [] (4 / 5)).1
      ⟨by rw [floor_800]; norm_num, by rw [floor_800]; norm_num,
        fun p hp => absurd hp (Option.not_mem_none p)⟩
  · exact hrv_derivation_contract.2.2.2

end HRV

namespace LTTB

/-- A time series: parallel timestamp and value arrays. -/
structure Values where
  timestamps : List ℚ
  values : List ℚ
deriving DecidableEq, Inhabited

/-- `Math.floor((i) * bucketSize) + 1`, the start of bucket `i` (the floors
are nonnegative whenever `bucketSize` is, which holds on the resampling
path). -/
def bucketStart (bs : ℚ) (i : ℕ) : ℕ := (⌊(i : ℚ) * bs⌋).toNat + 1

/-- One step of the max-triangle-area scan, carrying `(maxArea, maxIndex)`
initialized to `(-1, -1)`. -/
def scanStep (ts ys : List ℚ) (ax ay avgX avgY : ℚ) (acc : ℚ × ℤ) (j : ℕ) : ℚ × ℤ :=
  let area := |(ax - avgX) * (ys.getD j 0 - ay) - (ax - ts.getD j 0) * (avgY - ay)|
  if acc.1 < area then (area, (j : ℤ)) else acc

/-- The `for (let j = bucketStart; j < bucketEnd; j++)` area scan. -/
def scanMax (ts ys : List ℚ) (ax ay avgX avgY : ℚ) (js : List ℕ) : ℚ × ℤ :=
  js.foldl (scanStep ts ys ax ay avgX avgY) (-1, -1)

/-- Body of iteration `i` of the main loop: average the next bucket, then
pick the index of the largest triangle area in the current bucket. The
`toNat` on the scan result only matters when the current bucket is empty
(`maxIndex` stays `-1`), which is proved unreachable on the resampling
path. -/
def pickIndex (ts ys : List ℚ) (bs : ℚ) (L i a : ℕ) : ℕ :=
  let rangeStart := bucketStart bs (i + 1)
  let rangeEnd := min (bucketStart bs (i + 2)) L
  let avgCount : ℚ := (max (rangeEnd - rangeStart) 1 : ℕ)
  let avgJs := List.range' rangeStart (rangeEnd - rangeStart)
  let avgX := (avgJs.map (fun j => ts.getD j 0)).sum / avgCount
  let avgY := (avgJs.map (fun j => ys.getD j 0)).sum / avgCount
  (scanMax ts ys (ts.getD a 0) (ys.getD a 0) avgX avgY
    (List.range' (bucketStart bs i) (min (bucketStart bs (i + 1)) L - bucketStart bs i))).2.toNat

/-- The main loop over `i = 0 .. n-3` (`count` iterations remaining),
returning the selected indices; `a` is the previously selected index. -/
def lttbLoop (ts ys : List ℚ) (bs : ℚ) (L : ℕ) : ℕ → ℕ → ℕ → List ℕ
  | 0, _, _ => []
  | count + 1, i, a =>
    pickIndex ts ys bs L i a :: lttbLoop ts ys bs L count (i + 1) (pickIndex ts ys bs L i a)

/-- `lttb(values, n)`: identity when `n >= length` or `n < 3`, else the
first point, the `n - 2` loop selections, and the last point. -/
def lttb (v : Values) (n : ℕ) : Values :=
  let L := v.timestamps.length
  if L ≤ n ∨ n < 3 then v
  else
    let bs : ℚ := ((L : ℚ) - 2) / ((n : ℚ) - 2)
    let sel := 0 :: (lttbLoop v.timestamps v.values bs L (n - 2) 0 0 ++ [L - 1])
    ⟨sel.map (fun j => v.timestamps.getD j 0), sel.map (fun j => v.values.getD j 0)⟩

lemma scanStep_snd (ts ys : List ℚ) (ax ay avgX avgY : ℚ) (acc : ℚ × ℤ) (j : ℕ) :
    (scanStep ts ys ax ay avgX avgY acc j).2 = acc.2 ∨
      (scanStep ts ys ax ay avgX avgY acc j).2 = (j : ℤ) := by
  simp only [scanStep]
  split
  · exact Or.inr rfl
  · exact Or.inl rfl

lemma foldl_scan_mem (ts ys : List ℚ) (ax ay avgX avgY : ℚ) :
    ∀ (js : List ℕ) (acc : ℚ × ℤ),
      (js.foldl (scanStep ts ys ax ay avgX avgY) acc).2 = acc.2 ∨
        ∃ j ∈ js, (js.foldl (scanStep ts ys ax ay avgX avgY) acc).2 = (j : ℤ)
  | [], acc => Or.inl rfl
  | j :: rest, acc => by
    rw [List.foldl_cons]
    rcases foldl_scan_mem ts ys ax ay avgX avgY rest
        (scanStep ts ys ax ay avgX avgY acc j) with h | ⟨k, hk, he⟩
    · rcases scanStep_snd ts ys ax ay avgX avgY acc j with h2 | h2
      · exact Or.inl (h.trans h2)
      · exact Or.inr ⟨j, List.mem_cons_self j rest, h.trans h2⟩
    · exact Or.inr ⟨k, List.mem_cons_of_mem j hk, he⟩

lemma scanMax_mem {ts ys : List ℚ} {ax ay avgX avgY : ℚ} (js : List ℕ)
    (hne : js ≠ []) :
    ∃ j ∈ js, (scanMax ts ys ax ay avgX avgY js).2 = (j : ℤ) := by
  cases js with
  | nil => exact absurd rfl hne
  | cons j rest =>
    have h1 : (scanStep ts ys ax ay avgX avgY (-1, -1) j).2 = (j : ℤ) := by
      simp only [scanStep]
      rw [if_pos (lt_of_lt_of_le neg_one_lt_zero (abs_nonneg _))]
    simp only [scanMax, List.foldl_cons]
    rcases foldl_scan_mem ts ys ax ay avgX avgY rest
        (scanStep ts ys ax ay avgX avgY (-1, -1) j) with h | ⟨k, hk, he⟩
    · exact ⟨j, List.mem_cons_self j rest, h.trans h1⟩
    · exact ⟨k, List.mem_cons_of_mem j hk, he⟩

lemma bucketStart_lt_succ {bs : ℚ} (hbs : 1 < bs) (i : ℕ) :
    bucketStart bs i < bucketStart bs (i + 1) := by
  unfold bucketStart
  have h0 : (0 : ℚ) ≤ (i : ℚ) * bs := mul_nonneg (Nat.cast_nonneg i) (by linarith)
  have h1 : ⌊(i : ℚ) * bs⌋ + 1 ≤ ⌊((i + 1 : ℕ) : ℚ) * bs⌋ := by
    have hle : (i : ℚ) * bs + 1 ≤ ((i + 1 : ℕ) : ℚ) * bs := by
      push_cast
      nlinarith [Nat.cast_nonneg (α := ℚ) i]
    calc ⌊(i : ℚ) * bs⌋ + 1 = ⌊(i : ℚ) * bs + 1⌋ := (Int.floor_add_one _).symm
      _ ≤ ⌊((i + 1 : ℕ) : ℚ) * bs⌋ := Int.floor_le_floor hle
  have h2 : 0 ≤ ⌊(i : ℚ) * bs⌋ := Int.floor_nonneg.mpr h0
  omega

lemma bucketStart_mono {bs : ℚ} (hbs : 1 < bs) {i k : ℕ} (hik : i ≤ k) :
    bucketStart bs i ≤ bucketStart bs k := by
  unfold bucketStart
  have h1 : ⌊(i : ℚ) * bs⌋ ≤ ⌊(k : ℚ) * bs⌋ := by
    apply Int.floor_le_floor
    have : (i : ℚ) ≤ (k : ℚ) := by exact_mod_cast hik
    nlinarith
  omega

lemma bucketStart_last (L n : ℕ) (h3 : 3 ≤ n) (hL : n < L) :
    bucketStart (((L : ℚ) - 2) / ((n : ℚ) - 2)) (n - 2) = L - 1 := by
  unfold bucketStart
  have hn2 : ((n : ℚ) - 2) ≠ 0 := by
    have : (3 : ℚ) ≤ (n : ℚ) := by exact_mod_cast h3
    linarith
  have hcast : ((n - 2 : ℕ) : ℚ) = (n : ℚ) - 2 := by
    rw [Nat.cast_sub (by omega)]
    norm_num
  rw [hcast]
  have heq : ((n : ℚ) - 2) * (((L : ℚ) - 2) / ((n : ℚ) - 2)) = (L : ℚ) - 2 := by
    field_simp
  rw [heq]
  have hLcast : ((L : ℚ) - 2) = ((L - 2 : ℕ) : ℚ) := by
    rw [Nat.cast_sub (by omega)]
    norm_num
  rw [hLcast, Int.floor_natCast]
  omega

lemma bs_gt_one (L n : ℕ) (h3 : 3 ≤ n) (hL : n < L) :
    1 < ((L : ℚ) - 2) / ((n : ℚ) - 2) := by
  have hn : (0 : ℚ) < (n : ℚ) - 2 := by
    have : (3 : ℚ) ≤ (n : ℚ) := by exact_mod_cast h3
    linarith
  rw [one_lt_div hn]
  have : (n : ℚ) < (L : ℚ) := by exact_mod_cast hL
  linarith

lemma pickIndex_mem (ts ys : List ℚ) (bs : ℚ) (L i a : ℕ)
    (hne : bucketStart bs i < min (bucketStart bs (i + 1)) L) :
    bucketStart bs i ≤ pickIndex ts ys bs L i a ∧
      pickIndex ts ys bs L i a < min (bucketStart bs (i + 1)) L := by
  simp only [pickIndex]
  obtain ⟨j, hj, hm⟩ := scanMax_mem
    (List.range' (bucketStart bs i) (min (bucketStart bs (i + 1)) L - bucketStart bs i))
    (by rw [Ne, List.range'_eq_nil]; omega)
  rw [hm]
  rw [List.mem_range'_1] at hj
  simp only [Int.toNat_natCast]
  omega

lemma lttbLoop_spec (ts ys : List ℚ) (L n : ℕ) (h3 : 3 ≤ n) (hL : n < L) :
    ∀ (count i a : ℕ), i + count = n - 2 →
      a < bucketStart (((L : ℚ) - 2) / ((n : ℚ) - 2)) i →
      (lttbLoop ts ys (((L : ℚ) - 2) / ((n : ℚ) - 2)) L count i a).length = count ∧
      List.Chain (· < ·) a
        (lttbLoop ts ys (((L : ℚ) - 2) / ((n : ℚ) - 2)) L count i a) ∧
      ∀ x ∈ lttbLoop ts ys (((L : ℚ) - 2) / ((n : ℚ) - 2)) L count i a, x ≤ L - 2
  | 0, i, a, _, _ => ⟨rfl, List.Chain.nil, by simp [lttbLoop]⟩
  | count + 1, i, a, hcnt, ha => by
    have hbs : 1 < ((L : ℚ) - 2) / ((n : ℚ) - 2) := bs_gt_one L n h3 hL
    have hlt : bucketStart (((L : ℚ) - 2) / ((n : ℚ) - 2)) i <
        bucketStart (((L : ℚ) - 2) / ((n : ℚ) - 2)) (i + 1) := bucketStart_lt_succ hbs i
    have hle : bucketStart (((L : ℚ) - 2) / ((n : ℚ) - 2)) (i + 1) ≤
        bucketStart (((L : ℚ) - 2) / ((n : ℚ) - 2)) (n - 2) :=
      bucketStart_mono hbs (by omega)
    have hlast : bucketStart (((L : ℚ) - 2) / ((n : ℚ) - 2)) (n - 2) = L - 1 :=
      bucketStart_last L n h3 hL
    have hne : bucketStart (((L : ℚ) - 2) / ((n : ℚ) - 2)) i <
        min (bucketStart (((L : ℚ) - 2) / ((n : ℚ) - 2)) (i + 1)) L := by
      omega
    obtain ⟨hp1, hp2⟩ := pickIndex_mem ts ys (((L : ℚ) - 2) / ((n : ℚ) - 2)) L i a hne
    obtain ⟨ih1, ih2, ih3⟩ := lttbLoop_spec ts ys L n h3 hL count (i + 1)
      (pickIndex ts ys (((L : ℚ) - 2) / ((n : ℚ) - 2)) L i a) (by omega) (by omega)
    refine ⟨?_, ?_, ?_⟩
    · simp only [lttbLoop, List.length_cons, ih1]
    · exact List.Chain.cons (by omega) ih2
    · intro x hx
      simp only [lttbLoop, List.mem_cons] at hx
      rcases hx with hx | hx
      · omega
      · exact ih3 x hx

lemma bucketStart_zero (bs : ℚ) : bucketStart bs 0 = 1 := by
  simp [bucketStart]

lemma getD_mono_of_sorted (ts : List ℚ) (hs : ts.Sorted (· ≤ ·)) (a b : ℕ)
    (hab : a ≤ b) (hb : b < ts.length) : ts.getD a 0 ≤ ts.getD b 0 := by
  have ha : a < ts.length := Nat.lt_of_le_of_lt hab hb
  rw [List.getD_eq_getElem ts 0 ha, List.getD_eq_getElem ts 0 hb]
  exact List.Sorted.get_mono hs (show (⟨a, ha⟩ : Fin ts.length) ≤ ⟨b, hb⟩ from hab)

lemma getD_last_append (x y : ℚ) (mid : List ℚ) (k : ℕ) (hk : k = mid.length + 1) :
    (x :: (mid ++ [y])).getD k 0 = y := by
  subst hk
  rw [List.getD_cons_succ]
  rw [List.getD_eq_getElem?_getD, List.getElem?_append_right (by omega)]
  simp

lemma sel_pairwise (idxs : List ℕ) (L : ℕ) (hchain : List.Chain (· < ·) 0 idxs)
    (hbound : ∀ x ∈ idxs, x ≤ L - 2) (hL4 : 4 ≤ L) :
    List.Pairwise (· < ·) (0 :: (idxs ++ [L - 1])) := by
  rw [← List.cons_append]
  apply List.pairwise_append.mpr
  refine ⟨List.chain_iff_pairwise.mp hchain, List.pairwise_singleton _ _, ?_⟩
  intro a ha b hb
  rw [List.mem_singleton] at hb
  subst hb
  rcases List.mem_cons.mp ha with h | h
  · subst h
    omega
  · have := hbound a h
    omega

lemma map_getD_sorted (ts : List ℚ) (hs : ts.Sorted (· ≤ ·)) (sel : List ℕ)
    (hpw : List.Pairwise (· < ·) sel) (hmem : ∀ x ∈ sel, x < ts.length) :
    (sel.map (fun j => ts.getD j 0)).Sorted (· ≤ ·) := by
  apply List.pairwise_map.mpr
  exact hpw.imp_of_mem (fun ha hb hlt =>
    getD_mono_of_sorted ts hs _ _ (le_of_lt hlt) (hmem _ hb))

/-- C6: `lttb` returns its input unchanged when `n >= length` or `n < 3`;
otherwise, for sorted input timestamps, the output holds exactly `n` points,
its first and last points equal the input's first and last points verbatim,
and its timestamps are non-decreasing. -/
theorem lttb_postconditions (v : Values) (n : ℕ) :
    (v.timestamps.length ≤ n ∨ n < 3 → lttb v n = v) ∧
    (3 ≤ n → n < v.timestamps.length → v.timestamps.Sorted (· ≤ ·) →
      (lttb v n).timestamps.length = n ∧
      (lttb v n).values.length = n ∧
      (lttb v n).timestamps.getD 0 0 = v.timestamps.getD 0 0 ∧
      (lttb v n).values.getD 0 0 = v.values.getD 0 0 ∧
      (lttb v n).timestamps.getD (n - 1) 0 =
        v.timestamps.getD (v.timestamps.length - 1) 0 ∧
      (lttb v n).values.getD (n - 1) 0 =
        v.values.getD (v.timestamps.length - 1) 0 ∧
      (lttb v n).timestamps.Sorted (· ≤ ·)) := by
  constructor
  · intro h
    simp only [lttb]
    rw [if_pos h]
  · intro h3 hL hs
    have hL4 : 4 ≤ v.timestamps.length := by omega
    obtain ⟨hlen, hchain, hbound⟩ := lttbLoop_spec v.timestamps v.values
      v.timestamps.length n h3 hL (n - 2) 0 0 (by omega)
      (by rw [bucketStart_zero]; omega)
    have hcond : ¬ (v.timestamps.length ≤ n ∨ n < 3) := by omega
    have hT : (lttb v n).timestamps =
        (0 :: (lttbLoop v.timestamps v.values
            (((v.timestamps.length : ℚ) - 2) / ((n : ℚ) - 2))
            v.timestamps.length (n - 2) 0 0 ++ [v.timestamps.length - 1])).map
            (fun j => v.timestamps.getD j 0) := by
      simp only [lttb]
      rw [if_neg hcond]
    have hV : (lttb v n).values =
        (0 :: (lttbLoop v.timestamps v.values
            (((v.timestamps.length : ℚ) - 2) / ((n : ℚ) - 2))
            v.timestamps.length (n - 2) 0 0 ++ [v.timestamps.length - 1])).map
            (fun j => v.values.getD j 0) := by
      simp only [lttb]
      rw [if_neg hcond]
    have hpw := sel_pairwise _ v.timestamps.length hchain hbound hL4
    have hmem : ∀ x ∈ (0 :: (lttbLoop v.timestamps v.values
        (((v.timestamps.length : ℚ) - 2) / ((n : ℚ) - 2))
        v.timestamps.length (n - 2) 0 0 ++ [v.timestamps.length - 1])),
        x < v.timestamps.length := by
      intro x hx
      rcases List.mem_cons.mp hx with h | h
      · subst h
        omega
      · rcases List.mem_append.mp h with h | h
        · have := hbound x h
          omega
        · rw [List.mem_singleton] at h
          subst h
          omega
    refine ⟨?_, ?_, ?_, ?_, ?_, ?_, ?_⟩
    · rw [hT]
      simp only [List.length_map, List.length_cons, List.length_append,
        List.length_singleton, List.length_nil, hlen]
      omega
    · rw [hV]
      simp only [List.length_map, List.length_cons, List.length_append,
        List.length_singleton, List.length_nil, hlen]
      omega
    · rw [hT]
      rfl
    · rw [hV]
      rfl
    · rw [hT, List.map_cons, List.map_append, List.map_singleton]
      apply getD_last_append
      rw [List.length_map, hlen]
      omega
    · rw [hV, List.map_cons, List.map_append, List.map_singleton]
      apply getD_last_append
      rw [List.length_map, hlen]
      omega
    · rw [hT]
      exact map_getD_sorted v.timestamps hs _ hpw hmem

/-- Witness for C6 at a concrete series: resampling four points to three and
the identity branch at `n = 2`. -/
theorem lttb_postconditions_witness :
    (lttb ⟨[0, 1, 2, 3], [0, 10, 0, 10]⟩ 3).timestamps.length = 3 ∧
    (lttb ⟨[0, 1, 2, 3], [0, 10, 0, 10]⟩ 3).timestamps.getD 0 0 = 0 ∧
    (lttb ⟨[0, 1, 2, 3], [0, 10, 0, 10]⟩ 3).timestamps.getD 2 0 = 3 ∧
    (lttb ⟨[0, 1, 2, 3], [0, 10, 0, 10]⟩ 3).timestamps.Sorted (· ≤ ·) ∧
    lttb ⟨[0, 1, 2, 3], [0, 10, 0, 10]⟩ 2 = ⟨[0, 1, 2, 3], [0, 10, 0, 10]⟩ := by
  have h := (lttb_postconditions ⟨[0, 1, 2, 3], [0, 10, 0, 10]⟩ 3).2
    (by norm_num) (by simp) (by decide)
  refine ⟨h.1, h.2.2.1.trans (by decide), h.2.2.2.2.1.trans (by decide),
    h.2.2.2.2.2.2, ?_⟩
  exact (lttb_postconditions ⟨[0, 1, 2, 3], [0, 10, 0, 10]⟩ 2).1 (Or.inr (by norm_num))

end LTTB

namespace WebAudio

/-- `i0(x)`: piecewise polynomial/asymptotic approximation of the modified
Bessel function of the first kind, order 0, as used for Kaiser windows. -/
noncomputable def i0 (x : ℝ) : ℝ :=
  let ax := |x|
  if ax < 3.75 then
    let t := x / 3.75
    let t2 := t * t
    1.0 + t2 * (3.5156229 + t2 * (3.0899424 + t2 * (1.2067492 +
      t2 * (0.2659732 + t2 * (0.0360768 + t2 * 0.0045813)))))
  else
    let t := 3.75 / ax
    (Real.exp ax / Real.sqrt ax) *
      (0.39894228 + t * (0.01328592 + t * (0.00225319 + t * (-0.00157565 +
        t * (0.00916281 + t * (-0.02057706 + t * (0.02635537 +
          t * (-0.01647633 + t * 0.00392377))))))))

/-- Unnormalized `sinc`: `sin(x)/x` with the `|x| < 1e-8` guard. -/
noncomputable def sinc (x : ℝ) : ℝ :=
  if |x| < 1e-8 then 1.0 else Real.sin x / x

/-- Stopband attenuation (dB) to Kaiser beta. -/
noncomputable def kaiserBetaFromAttenuation (A : ℝ) : ℝ :=
  if 50 < A then 0.1102 * (A - 8.7)
  else if 21 ≤ A then 0.5842 * (A - 21) ^ (0.4 : ℝ) + 0.07886 * (A - 21)
  else 0.0

/-- `designLowpassKaiser(N, fc, beta)`: Kaiser-windowed sinc prototype. -/
noncomputable def designLowpassKaiser (N : ℕ) (fc beta : ℝ) : List ℝ :=
  let M := (N : ℝ) - 1
  (List.range N).map (fun (n : ℕ) =>
    let m := (n : ℝ) - M / 2
    let w := i0 (beta * Real.sqrt (1 - ((2 * (n : ℝ)) / M - 1) ^ 2)) / i0 beta
    let s := sinc (2 * Real.pi * fc * m)
    2 * fc * s * w)

/-- `normalizeUnityDC`: scale the taps by `1/sum` (no-op on a zero sum). -/
noncomputable def normalizeUnityDC (taps : List ℝ) : List ℝ :=
  let sum := taps.sum
  let g := if sum ≠ 0 then 1.0 / sum else 1.0
  taps.map (fun t => t * g)

/-- Polyphase branch `p` w.r.t. `L`: the reversed taps `hr[p], hr[p+L], ...`. -/
noncomputable def phase (hr : List ℝ) (L p : ℕ) : List ℝ :=
  ((List.range hr.length).filter (fun k => k % L == p)).map (fun k => hr.getD k 0)

/-- `hasSample(absIdx)`: the ring buffer retains indices
`[writeAbs - bufCap, writeAbs - 1]` and nothing before stream start. -/
def hasSample (writeAbs bufCap idx : ℤ) : Prop :=
  0 ≤ idx ∧ writeAbs - bufCap ≤ idx ∧ idx ≤ writeAbs - 1

instance (writeAbs bufCap idx : ℤ) : Decidable (hasSample writeAbs bufCap idx) :=
  inferInstanceAs (Decidable (_ ∧ _ ∧ _))

/-- `sumH` for output index `q`: the sum of exactly those phase taps that
land on retained input samples. -/
noncomputable def sumHOf (hp : List ℝ) (writeAbs bufCap q : ℤ) : ℝ :=
  ((List.range hp.length).map (fun (k : ℕ) =>
    if hasSample writeAbs bufCap (q - (k : ℤ)) then hp.getD k 0 else 0)).sum

/-- `acc` for output index `q`: the dot product over taps landing on
retained samples, reading the stream `x` at absolute indices. -/
noncomputable def accOf (hp : List ℝ) (x : ℤ → ℝ) (writeAbs bufCap q : ℤ) : ℝ :=
  ((List.range hp.length).map (fun (k : ℕ) =>
    if hasSample writeAbs bufCap (q - (k : ℤ)) then hp.getD k 0 * x (q - (k : ℤ)) else 0)).sum

/-- One output of `produceOutputsIfPossible`:
`y = sumH > 1e-12 ? acc / sumH : 0.0`. -/
noncomputable def outputAt (hp : List ℝ) (x : ℤ → ℝ) (writeAbs bufCap q : ℤ) : ℝ :=
  if 1e-12 < sumHOf hp writeAbs bufCap q then
    accOf hp x writeAbs bufCap q / sumHOf hp writeAbs bufCap q
  else 0.0

/-- The counterexample configuration: `L = 1`, `M = 2` (halving the rate),
default `tapsPerPhase = 24` so `N = 25`, `fc = 0.5 / max(L, M) = 1/4`,
default attenuation 80 dB. -/
noncomputable def betaDefault : ℝ := kaiserBetaFromAttenuation 80

noncomputable def hEx : List ℝ := normalizeUnityDC (designLowpassKaiser 25 (1 / 4) betaDefault)

/-- Reversed taps (`hr[i] = h[N-1-i]`). -/
noncomputable def hrEx : List ℝ := hEx.reverse

lemma sum_map_scale (f g : ℕ → ℝ) (v : ℝ) (hfg : ∀ k, f k = v * g k) :
    ∀ l : List ℕ, (l.map f).sum = v * (l.map g).sum
  | [] => by simp
  | k :: rest => by
    rw [List.map_cons, List.map_cons, List.sum_cons, List.sum_cons,
      sum_map_scale f g v hfg rest, hfg k]
    ring

lemma sum_range_map_succ_zero (f : ℕ → ℝ) :
    ∀ n : ℕ, (∀ k, 1 ≤ k → f k = 0) → ((List.range (n + 1)).map f).sum = f 0
  | 0, _ => by simp [List.range_succ]
  | n + 1, hf => by
    rw [List.range_succ, List.map_append, List.sum_append,
      sum_range_map_succ_zero f n hf]
    simp [hf (n + 1) (by omega)]

lemma sumHOf_single (hp : List ℝ) (writeAbs bufCap q : ℤ)
    (h0 : hasSample writeAbs bufCap q)
    (hk : ∀ k : ℕ, 1 ≤ k → ¬ hasSample writeAbs bufCap (q - k))
    (hne : hp ≠ []) :
    sumHOf hp writeAbs bufCap q = hp.getD 0 0 := by
  obtain ⟨a, rest, rfl⟩ := List.exists_cons_of_ne_nil hne
  unfold sumHOf
  rw [List.length_cons]
  rw [sum_range_map_succ_zero _ rest.length (fun k hk1 => if_neg (hk k hk1))]
  simp only [Nat.cast_zero, sub_zero]
  rw [if_pos h0]

lemma map_getD_range_real (l : List ℝ) :
    (List.range l.length).map (fun k => l.getD k 0) = l := by
  apply List.ext_getElem
  · simp
  · intro i h1 h2
    rw [List.getElem_map, List.getElem_range, List.getD_eq_getElem l 0 h2]

lemma phase_one_zero (hr : List ℝ) : phase hr 1 0 = hr := by
  unfold phase
  rw [List.filter_eq_self.mpr (by intro k _; simp [Nat.mod_one])]
  exact map_getD_range_real hr

lemma sinc_int_mul_pi (x : ℝ) (n : ℤ) (hn : x = (n : ℝ) * Real.pi) (hn0 : n ≠ 0) :
    sinc x = 0 := by
  have habs : (1 : ℝ) ≤ |x| := by
    rw [hn, abs_mul, abs_of_nonneg Real.pi_pos.le]
    have h1 : (1 : ℝ) ≤ |(n : ℝ)| := by
      rw [← Int.cast_abs]
      exact_mod_cast Int.one_le_abs hn0
    nlinarith [Real.pi_gt_three]
  unfold sinc
  rw [if_neg (not_lt.mpr (le_trans (by norm_num : (1e-8 : ℝ) ≤ 1) habs))]
  rw [hn, Real.sin_int_mul_pi, zero_div]

lemma design_getD (N : ℕ) (fc beta : ℝ) (n : ℕ) (hn : n < N) :
    (designLowpassKaiser N fc beta).getD n 0 =
      2 * fc * sinc (2 * Real.pi * fc * ((n : ℝ) - ((N : ℝ) - 1) / 2)) *
        (i0 (beta * Real.sqrt (1 - (2 * (n : ℝ) / ((N : ℝ) - 1) - 1) ^ 2)) / i0 beta) := by
  unfold designLowpassKaiser
  rw [List.getD_eq_getElem _ 0 (by simpa using hn), List.getElem_map, List.getElem_range]

lemma design_length : (designLowpassKaiser 25 (1 / 4) betaDefault).length = 25 := by
  unfold designLowpassKaiser
  rw [List.length_map, List.length_range]

lemma designTap24 : (designLowpassKaiser 25 (1 / 4) betaDefault).getD 24 0 = 0 := by
  rw [design_getD 25 (1 / 4) betaDefault 24 (by norm_num)]
  have hs : sinc (2 * Real.pi * (1 / 4 : ℝ) * (((24 : ℕ) : ℝ) - (((25 : ℕ) : ℝ) - 1) / 2)) = 0 := by
    apply sinc_int_mul_pi _ 6 ?_ (by norm_num)
    push_cast
    ring
  rw [hs]
  ring

lemma hEx_length : hEx.length = 25 := by
  unfold hEx normalizeUnityDC
  rw [List.length_map]
  exact design_length

lemma hEx_tap24 : hEx.getD 24 0 = 0 := by
  unfold hEx normalizeUnityDC
  rw [List.getD_eq_getElem _ 0 (by rw [List.length_map, design_length]; omega),
    List.getElem_map]
  have h24 := designTap24
  rw [List.getD_eq_getElem _ 0 (by rw [design_length]; omega)] at h24
  rw [h24, zero_mul]

lemma hrEx_head : hrEx.getD 0 0 = 0 := by
  unfold hrEx
  rw [List.getD_eq_getElem _ 0 (by rw [List.length_reverse, hEx_length]; omega)]
  rw [List.getElem_reverse]
  have h24 := hEx_tap24
  rw [List.getD_eq_getElem _ 0 (by rw [hEx_length]; omega)] at h24
  have hidx : hEx.length - 1 - 0 = 24 := by
    rw [hEx_length]
  simp only [hidx]
  exact h24

lemma hrEx_ne_nil : hrEx ≠ [] := by
  intro h
  have := congrArg List.length h
  rw [hrEx] at this
  rw [List.length_reverse, hEx_length] at this
  simp at this

/-- C2 counterexample: with `L = 1`, `M = 2` (target rate = half the input
rate), the default 24 taps per phase (`N = 25`) and `fc = 1/4`, the first
output produced after one sample of the constant-1 stream is 0, not 1: the
only tap landing on a received sample is `hr[0] = h[24] = 2·fc·sinc(6π)·w`,
which is exactly zero, so `sumH = 0 ≤ 1e-12` and the `0.0` fallback fires
(the DC normalization scales a zero tap to zero). -/
theorem webaudio_warmup_counterexample :
    outputAt (phase hrEx 1 0) (fun _ => (1 : ℝ)) 1 2048 0 = 0 ∧ (1 : ℝ) ≠ 0 := by
  refine ⟨?_, one_ne_zero⟩
  rw [phase_one_zero]
  have hsum : sumHOf hrEx 1 2048 0 = 0 := by
    rw [sumHOf_single hrEx 1 2048 0 ⟨by norm_num, by norm_num, by norm_num⟩
      (fun k hk1 hcon => by have h1 := hcon.1; omega) hrEx_ne_nil]
    exact hrEx_head
  unfold outputAt
  rw [hsum]
  rw [if_neg (by norm_num)]
  norm_num

/-- C2 (amended): for a constant input stream `x = v`, an output sample
equals `v` whenever the sum of the taps landing on retained samples exceeds
the `1e-12` guard, and is `0.0` otherwise — warm-up renormalization
preserves DC gain only in the first case. -/
theorem webaudio_constant_input (hp : List ℝ) (writeAbs bufCap q : ℤ) (v : ℝ) :
    (1e-12 < sumHOf hp writeAbs bufCap q →
      outputAt hp (fun _ => v) writeAbs bufCap q = v) ∧
    (sumHOf hp writeAbs bufCap q ≤ 1e-12 →
      outputAt hp (fun _ => v) writeAbs bufCap q = 0) := by
  have hacc : accOf hp (fun _ => v) writeAbs bufCap q =
      v * sumHOf hp writeAbs bufCap q := by
    unfold accOf sumHOf
    exact sum_map_scale _ _ v (fun k => by split <;> ring) _
  constructor
  · intro h
    unfold outputAt
    rw [if_pos h, hacc, mul_div_assoc,
      div_self (ne_of_gt (lt_trans (by norm_num) h)), mul_one]
  · intro h
    unfold outputAt
    rw [if_neg (not_lt.mpr h)]
    norm_num

/-- Witness for (amended) C2 at a concrete single-tap phase. -/
theorem webaudio_constant_input_witness :
    (1e-12 : ℝ) < sumHOf [1] 1 2048 0 ∧
    outputAt [1] (fun _ => (5 : ℝ)) 1 2048 0 = 5 := by
  have hsum : sumHOf [1] 1 2048 0 = 1 := by
    rw [sumHOf_single [1] 1 2048 0 ⟨by norm_num, by norm_num, by norm_num⟩
      (fun k hk1 hcon => by have h1 := hcon.1; omega) (by simp)]
    rfl
  have hlt : (1e-12 : ℝ) < sumHOf [1] 1 2048 0 := by
    rw [hsum]
    norm_num
  exact ⟨hlt, (webaudio_constant_input [1] 1 2048 0 5).1 hlt⟩

end WebAudio

end OpenPSG
